import Mathlib

/-!
A shallow embedding of `SimpleVector<Type>` from the repository cpp-simple-vector.

The class template of `simple_vector.h` is embedded as a record of its three data members
and one Lean function per member function.  A member function takes the object before the
call and returns the object after the call together with what the call produced: the
returned value, or the way the call ended without returning (`Fault`).

Conventions of the embedding.
* A block of storage is the list of its slots; an offset at or past the length of the list
  lies outside the block, and touching it is undefined behaviour (`Fault.Undefined`).
* `size_t` is `Nat`: a block of `2^64` elements cannot be allocated, so no counter wraps.
* Iterators are offsets from `begin()`.
* Moving an element is copying it: the slot moved from keeps its value (exact for `int`,
  the type the driver instantiates).  `PushBack(const Type&)` / `PushBack(Type&&)` and the
  two `Insert` overloads differ only in `std::move`, so each pair has one embedding.
* A reference parameter is read when the body reads it, not when the call is made.  `Insert`
  assigns `items_[index] = value` after it has shifted elements inside the block, so its
  `value` is a `ValueRef`: a reference to an object outside the block, or to a slot of the
  block (as in `v.Insert(v.begin(), v[2])`).  `PushBack` reads `item` while every slot of
  the block the array owned at the call still holds the value it had then (the growing path
  only copies out of that block, the other path writes no slot before the read), so there
  the parameter is the value referred to.
* `new[]` either fails or hands out a block whose slots hold arbitrary values.  The result
  of the storage request a call may make is a parameter `fresh` of that call: `none` when
  the request cannot be satisfied, `some f` when it is, slot `i` of the new block then
  holding `f i`.
-/

namespace CppSimpleVector

/-- Ways a call can end without returning a value. -/
inductive Fault where
  /-- The exception `std::bad_alloc` raised by a failed `new[]`. -/
  | OutOfMemory
  /-- The exception `std::out_of_range` thrown by `At`. -/
  | IndexOutOfRange
  /-- Undefined behaviour: a failed `assert`, or an access outside the allocated block. -/
  | Undefined
  deriving DecidableEq, Repr

/-! ## The owned buffer -/

/-- Modelled from the spec: `array_ptr.h` is not among the sources.  The spec describes
`ArrayPtr<Type>` as an owned block of exactly as many elements as were requested when it was
created, accessed by offset without bounds checking.  The block is the list of its slots. -/
abbrev ArrayPtr (α : Type) := List α

/-- Modelled from the spec: `ArrayPtr(size)`, the `create(capacity)` of the spec: storage for
exactly `capacity` elements; capacity 0 is legal and allocates nothing; fails with
`OutOfMemory` if the allocation cannot be satisfied. -/
def ArrayPtr.create {α : Type} (fresh : Option (Nat → α)) (size : Nat) :
    Except Fault (ArrayPtr α) :=
  if size = 0 then .ok []
  else
    match fresh with
    | none => .error .OutOfMemory
    | some f => .ok ((List.range size).map f)

/-- Modelled from the spec: `ArrayPtr::operator[]` used as an rvalue, the `access(offset)` of
the spec: no bounds checking, precondition `offset < capacity`, undefined otherwise. -/
def ArrayPtr.load {α : Type} (p : ArrayPtr α) (offset : Nat) : Option α :=
  p[offset]?

/-- Modelled from the spec: `ArrayPtr::operator[]` used as an lvalue (`items_[i] = x`), under
the same precondition `offset < capacity`. -/
def ArrayPtr.store {α : Type} (p : ArrayPtr α) (offset : Nat) (x : α) : Option (ArrayPtr α) :=
  if offset < p.length then some (p.set offset x) else none

/-- A parameter of type `const Type&` or `Type&&` of a member function: what it refers to is
an object outside the block of the array the call is made on, or a slot of that block. -/
inductive ValueRef (α : Type) where
  /-- A reference to an object outside the block, holding `x`. -/
  | object (x : α)
  /-- A reference to the slot at `offset` of the block the array owns when the call is
  made, such as `v[offset]`. -/
  | slot (offset : Nat)
  deriving Repr

/-- Reading through the reference: `block` is the block the array owned when the call was
made, as it is at the time of the read. -/
def ValueRef.read {α : Type} (value : ValueRef α) (block : ArrayPtr α) : Option α :=
  match value with
  | .object x => some x
  | .slot offset => ArrayPtr.load block offset

/-- Modelled from the spec: the move constructor and move assignment of `ArrayPtr`, the
ownership transfer of the spec: the source relinquishes its block (becomes capacity-0) and
the destination acquires it.  Returns the destination and the source after the move. -/
def ArrayPtr.moveFrom {α : Type} (other : ArrayPtr α) : ArrayPtr α × ArrayPtr α :=
  (other, [])

/-- Source: `std::exchange(obj, new_value)`: returns the old value of `obj`, and `obj` after the
call. -/
def std_exchange (obj new_value : Nat) : Nat × Nat := (obj, new_value)

/-! ## The standard algorithms the class calls

Each is the element-by-element loop the C++ standard prescribes, on offsets into blocks. -/

/-- Loop of `std::copy` between two different blocks: `n` elements, front to back. -/
def copyLoop {α : Type} (src : ArrayPtr α) : Nat → Nat → ArrayPtr α → Nat → Option (ArrayPtr α)
  | 0, _, dst, _ => some dst
  | n + 1, first, dst, d_first =>
    match ArrayPtr.load src first with
    | none => none
    | some x =>
      match ArrayPtr.store dst d_first x with
      | none => none
      | some dst1 => copyLoop src n (first + 1) dst1 (d_first + 1)

/-- Source: `std::copy(first, last, d_first)` with `[first, last)` in the block `src` and `d_first`
in another block `dst`; returns the destination block. -/
def std_copy {α : Type} (src : ArrayPtr α) (first last : Nat) (dst : ArrayPtr α)
    (d_first : Nat) : Option (ArrayPtr α) :=
  if first ≤ last then copyLoop src (last - first) first dst d_first else none

/-- Loop of `std::copy` inside one block: each step reads the block as the earlier steps
left it. -/
def copyWithinLoop {α : Type} : Nat → Nat → ArrayPtr α → Nat → Option (ArrayPtr α)
  | 0, _, buf, _ => some buf
  | n + 1, first, buf, d_first =>
    match ArrayPtr.load buf first with
    | none => none
    | some x =>
      match ArrayPtr.store buf d_first x with
      | none => none
      | some buf1 => copyWithinLoop n (first + 1) buf1 (d_first + 1)

/-- Source: `std::copy(first, last, d_first)` with source range and destination in the same block. -/
def std_copy_within {α : Type} (buf : ArrayPtr α) (first last d_first : Nat) :
    Option (ArrayPtr α) :=
  if first ≤ last then copyWithinLoop (last - first) first buf d_first else none

/-- Loop of `std::copy_backward` inside one block: `n` elements, back to front; `last` and
`d_last` are the one-past-the-end offsets still to be handled. -/
def copyBackwardLoop {α : Type} : Nat → Nat → ArrayPtr α → Nat → Option (ArrayPtr α)
  | 0, _, buf, _ => some buf
  | n + 1, last, buf, d_last =>
    if last = 0 ∨ d_last = 0 then none
    else
      match ArrayPtr.load buf (last - 1) with
      | none => none
      | some x =>
        match ArrayPtr.store buf (d_last - 1) x with
        | none => none
        | some buf1 => copyBackwardLoop n (last - 1) buf1 (d_last - 1)

/-- Source: `std::copy_backward(first, last, d_last)` with source range and destination in the same
block. -/
def std_copy_backward {α : Type} (buf : ArrayPtr α) (first last d_last : Nat) :
    Option (ArrayPtr α) :=
  if first ≤ last then copyBackwardLoop (last - first) last buf d_last else none

/-- Loop of `std::fill` / `std::generate` with a generator that always yields `x`: writes
`x` to the `n` slots from `first` on. -/
def fillLoop {α : Type} (x : α) : Nat → Nat → ArrayPtr α → Option (ArrayPtr α)
  | 0, _, buf => some buf
  | n + 1, first, buf =>
    match ArrayPtr.store buf first x with
    | none => none
    | some buf1 => fillLoop x n (first + 1) buf1

/-- Source: `std::fill(first, last, x)`, and `std::generate(first, last, [] { return x; })`. -/
def std_fill {α : Type} (buf : ArrayPtr α) (first last : Nat) (x : α) : Option (ArrayPtr α) :=
  if first ≤ last then fillLoop x (last - first) first buf else none

/-- Loop of `std::equal`: compares `n` slots of `a` from `first1` with those of `b` from
`first2`, stopping at the first mismatch. -/
def equalLoop {α : Type} [BEq α] (a b : ArrayPtr α) : Nat → Nat → Nat → Option Bool
  | 0, _, _ => some true
  | n + 1, first1, first2 =>
    match ArrayPtr.load a first1, ArrayPtr.load b first2 with
    | some x, some y => if x == y then equalLoop a b n (first1 + 1) (first2 + 1) else some false
    | _, _ => none

/-- Source: `std::equal(first1, last1, first2)`. -/
def std_equal {α : Type} [BEq α] (a : ArrayPtr α) (first1 last1 : Nat) (b : ArrayPtr α)
    (first2 : Nat) : Option Bool :=
  if first1 ≤ last1 then equalLoop a b (last1 - first1) first1 first2 else none

/-- Loop of `std::lexicographical_compare`, with `n` elements of the first range left:
`for (; first1 != last1 && first2 != last2; ++first1, ++first2)`, returning `true` when
`*first1 < *first2`, `false` when `*first2 < *first1`, and after the loop
`first1 == last1 && first2 != last2`. -/
def lexLoop {α : Type} [LT α] [DecidableRel (fun (x y : α) => x < y)] (a b : ArrayPtr α)
    (last2 : Nat) : Nat → Nat → Nat → Option Bool
  | 0, _, first2 => some (first2 != last2)
  | n + 1, first1, first2 =>
    if first2 = last2 then some false
    else
      match ArrayPtr.load a first1, ArrayPtr.load b first2 with
      | some x, some y =>
        if x < y then some true
        else if y < x then some false
        else lexLoop a b last2 n (first1 + 1) (first2 + 1)
      | _, _ => none

/-- Source: `std::lexicographical_compare(first1, last1, first2, last2)`. -/
def std_lexicographical_compare {α : Type} [LT α] [DecidableRel (fun (x y : α) => x < y)]
    (a : ArrayPtr α) (first1 last1 : Nat) (b : ArrayPtr α) (first2 last2 : Nat) :
    Option Bool :=
  if first1 ≤ last1 ∧ first2 ≤ last2 then lexLoop a b last2 (last1 - first1) first1 first2
  else none

/-- Source: `class ReserveProxyObj`: the requested capacity, carried to a constructor. -/
structure ReserveProxyObj where
  reserve_ : Nat
  deriving Repr, DecidableEq

/-- Source: `size_t ReserveProxyObj::GetReserveSize() const`. -/
def ReserveProxyObj.GetReserveSize (p : ReserveProxyObj) : Nat := p.reserve_

/-- Source: `ReserveProxyObj Reserve(size_t capacity_to_reserve)`, the free function. -/
def Reserve (capacity_to_reserve : Nat) : ReserveProxyObj := ⟨capacity_to_reserve⟩

/-! ## The dynamic array -/

/-- The data members of `SimpleVector<Type>`. -/
structure SimpleVector (α : Type) where
  items_ : ArrayPtr α
  size_ : Nat
  capacity_ : Nat
  deriving Repr

namespace SimpleVector

variable {α : Type}

/-- Result of a member function that may change the object: the object after the call, and
the value returned or the fault raised. -/
abbrev Call (α β : Type) := SimpleVector α × Except Fault β

/-- Source: `SimpleVector() noexcept = default`. -/
def ctor : SimpleVector α := ⟨[], 0, 0⟩

/-- Source: `size_t GetSize() const noexcept`. -/
def GetSize (v : SimpleVector α) : Nat := v.size_

/-- Source: `size_t GetCapacity() const noexcept`. -/
def GetCapacity (v : SimpleVector α) : Nat := v.capacity_

/-- Source: `bool IsEmpty() const noexcept`. -/
def IsEmpty (v : SimpleVector α) : Bool := v.size_ == 0

/-- Source: `begin()`, as an offset. -/
def begin_ (_v : SimpleVector α) : Nat := 0

/-- Source: `end()`, as an offset: `items_.Get() + size_`. -/
def end_ (v : SimpleVector α) : Nat := v.size_

/-- Source: `SimpleVector(const SimpleVector& other)`: the copy constructor. -/
def copyCtor (fresh : Option (Nat → α)) (other : SimpleVector α) :
    Except Fault (SimpleVector α) :=
  match ArrayPtr.create fresh other.GetSize with
  | .error e => .error e
  | .ok items =>
    let self : SimpleVector α := ⟨items, other.GetSize, other.GetCapacity⟩
    match std_copy other.items_ other.begin_ other.end_ self.items_ self.begin_ with
    | none => .error .Undefined
    | some items1 => .ok { self with items_ := items1 }

/-- Source: `Type& operator[](size_t index) noexcept`, read through the reference. -/
def subscript (v : SimpleVector α) (index : Nat) : Except Fault α :=
  if index < v.size_ then
    match ArrayPtr.load v.items_ index with
    | none => .error .Undefined
    | some x => .ok x
  else .error .Undefined

/-- Source: `Type& operator[](size_t index) noexcept`, assigned through the reference. -/
def subscriptAssign (v : SimpleVector α) (index : Nat) (x : α) : Call α Unit :=
  if index < v.size_ then
    match ArrayPtr.store v.items_ index x with
    | none => (v, .error .Undefined)
    | some items => ({ v with items_ := items }, .ok ())
  else (v, .error .Undefined)

/-- Source: `void PushBack(const Type& item)` and `void PushBack(Type&& item)`. -/
def PushBack (fresh : Option (Nat → α)) (v : SimpleVector α) (item : α) : Call α Unit :=
  if v.size_ + 1 > v.capacity_ then
    let new_size := if v.size_ = 0 then 1 else v.size_ + 1
    let new_capacity := if v.size_ = 0 then new_size else v.size_ * 2
    match ArrayPtr.create fresh new_capacity with
    | .error e => (v, .error e)
    | .ok fresh_items =>
      -- items_.swap(temp_items); capacity_ = new_capacity; size_ = new_size;
      let temp_items := v.items_
      let v1 : SimpleVector α := ⟨fresh_items, new_size, new_capacity⟩
      match std_copy temp_items 0 (v1.size_ - 1) v1.items_ v1.begin_ with
      | none => (v1, .error .Undefined)
      | some items1 =>
        match ArrayPtr.store items1 (v1.size_ - 1) item with
        | none => ({ v1 with items_ := items1 }, .error .Undefined)
        | some items2 => ({ v1 with items_ := items2 }, .ok ())
  else
    match ArrayPtr.store v.items_ v.size_ item with
    | none => (v, .error .Undefined)
    | some items => ({ v with items_ := items, size_ := v.size_ + 1 }, .ok ())

/-- Source: `Iterator Insert(ConstIterator pos, const Type& value)` and
`Iterator Insert(ConstIterator pos, Type&& value)`; `pos` and the result are offsets from
`begin()`, and `value` is the reference passed, read where the body assigns
`items_[index] = value`. -/
def Insert (fresh : Option (Nat → α)) (v : SimpleVector α) (pos : Nat)
    (value : ValueRef α) : Call α Nat :=
  let index := pos - v.begin_
  if ¬ index ≤ v.size_ then (v, .error .Undefined)
  else if v.size_ + 1 > v.capacity_ then
    let new_size := if v.size_ = 0 then 1 else v.size_ + 1
    let new_capacity := if v.size_ = 0 then new_size else v.size_ * 2
    match ArrayPtr.create fresh new_capacity with
    | .error e => (v, .error e)
    | .ok fresh_items =>
      -- items_.swap(temp_items); capacity_ = new_capacity; size_ = new_size;
      let temp_items := v.items_
      let v1 : SimpleVector α := ⟨fresh_items, new_size, new_capacity⟩
      match std_copy temp_items 0 index v1.items_ v1.begin_ with
      | none => (v1, .error .Undefined)
      | some items1 =>
        -- items_[index] = value; a reference into the old block now reads `temp_items`
        match value.read temp_items with
        | none => ({ v1 with items_ := items1 }, .error .Undefined)
        | some x =>
          match ArrayPtr.store items1 index x with
          | none => ({ v1 with items_ := items1 }, .error .Undefined)
          | some items2 =>
            match std_copy temp_items index (v1.size_ - 1) items2 (v1.begin_ + index + 1) with
            | none => ({ v1 with items_ := items2 }, .error .Undefined)
            | some items3 => ({ v1 with items_ := items3 }, .ok (v1.begin_ + index))
  else
    let v1 : SimpleVector α := { v with size_ := v.size_ + 1 }
    match std_copy_backward v1.items_ index (v1.size_ - 1) v1.size_ with
    | none => (v1, .error .Undefined)
    | some items1 =>
      -- items_[index] = value; a reference into the block reads it as the shift left it
      match value.read items1 with
      | none => ({ v1 with items_ := items1 }, .error .Undefined)
      | some x =>
        match ArrayPtr.store items1 index x with
        | none => ({ v1 with items_ := items1 }, .error .Undefined)
        | some items2 => ({ v1 with items_ := items2 }, .ok (v1.begin_ + index))

/-- Source: `Iterator Erase(ConstIterator pos)`; `pos` and the result are offsets from `begin()`. -/
def Erase (v : SimpleVector α) (pos : Nat) : Call α Nat :=
  let index := pos - v.begin_
  if ¬ index < v.size_ then (v, .error .Undefined)
  else if v.size_ ≠ 0 then
    match std_copy_within v.items_ (v.begin_ + index + 1) v.end_ (v.begin_ + index) with
    | none => (v, .error .Undefined)
    | some items1 => ({ v with items_ := items1, size_ := v.size_ - 1 }, .ok (v.begin_ + index))
  else (v, .ok (v.begin_ + index))

/-- Source: `void PopBack() noexcept`. -/
def PopBack (v : SimpleVector α) : Call α Unit :=
  if v.size_ ≠ 0 then ({ v with size_ := v.size_ - 1 }, .ok ())
  else (v, .error .Undefined)

/-- Source: `void Clear() noexcept`. -/
def Clear (v : SimpleVector α) : SimpleVector α := { v with size_ := 0 }

/-- Source: `Type& At(size_t index)` and `const Type& At(size_t index) const`. -/
def At (v : SimpleVector α) (index : Nat) : Call α α :=
  if index ≥ v.size_ then (v, .error .IndexOutOfRange)
  else
    match ArrayPtr.load v.items_ index with
    | none => (v, .error .Undefined)
    | some x => (v, .ok x)

/-- Source: `void Resize(size_t new_size)`; `Type{}` is `default`. -/
def Resize [Inhabited α] (fresh : Option (Nat → α)) (v : SimpleVector α) (new_size : Nat) :
    Call α Unit :=
  if new_size > v.capacity_ then
    let old_size := v.size_
    match ArrayPtr.create fresh new_size with
    | .error e => (v, .error e)
    | .ok fresh_items =>
      -- items_.swap(temp_items); size_ = new_size; capacity_ = new_size;
      let temp_items := v.items_
      let v1 : SimpleVector α := ⟨fresh_items, new_size, new_size⟩
      match std_copy temp_items 0 (0 + old_size) v1.items_ v1.begin_ with
      | none => (v1, .error .Undefined)
      | some items1 =>
        match std_fill items1 (v1.begin_ + old_size) v1.end_ default with
        | none => ({ v1 with items_ := items1 }, .error .Undefined)
        | some items2 => ({ v1 with items_ := items2 }, .ok ())
  else if new_size ≥ v.size_ then
    let old_size := v.size_
    let v1 : SimpleVector α := { v with size_ := new_size }
    match std_fill v1.items_ (v1.begin_ + old_size) v1.end_ default with
    | none => (v1, .error .Undefined)
    | some items1 => ({ v1 with items_ := items1 }, .ok ())
  else ({ v with size_ := new_size }, .ok ())

/-- Source: `void Reserve(const size_t capacity)`. -/
def Reserve (fresh : Option (Nat → α)) (v : SimpleVector α) (capacity : Nat) : Call α Unit :=
  if capacity > v.capacity_ then
    match ArrayPtr.create fresh capacity with
    | .error e => (v, .error e)
    | .ok fresh_items =>
      -- items_.swap(temp_items); capacity_ = capacity;
      let temp_items := v.items_
      let v1 : SimpleVector α := { v with items_ := fresh_items, capacity_ := capacity }
      match std_copy temp_items 0 (0 + v1.size_) v1.items_ v1.begin_ with
      | none => (v1, .error .Undefined)
      | some items1 => ({ v1 with items_ := items1 }, .ok ())
  else (v, .ok ())

/-- Source: `void swap(SimpleVector& other) noexcept`: the two objects after the call, `*this`
first. -/
def swap (v other : SimpleVector α) : SimpleVector α × SimpleVector α :=
  (⟨other.items_, other.size_, other.capacity_⟩, ⟨v.items_, v.size_, v.capacity_⟩)

/-- Source: `explicit SimpleVector(size_t size)`. -/
def ctorSize [Inhabited α] (fresh : Option (Nat → α)) (size : Nat) :
    Except Fault (SimpleVector α) :=
  match ArrayPtr.create fresh size with
  | .error e => .error e
  | .ok items =>
    let self : SimpleVector α := ⟨items, size, size⟩
    match std_fill self.items_ self.begin_ self.end_ default with
    | none => .error .Undefined
    | some items1 => .ok { self with items_ := items1 }

/-- Source: `SimpleVector(size_t size, const Type& value)`. -/
def ctorSizeValue (fresh : Option (Nat → α)) (size : Nat) (value : α) :
    Except Fault (SimpleVector α) :=
  match ArrayPtr.create fresh size with
  | .error e => .error e
  | .ok items =>
    let self : SimpleVector α := ⟨items, size, size⟩
    match std_fill self.items_ self.begin_ self.end_ value with
    | none => .error .Undefined
    | some items1 => .ok { self with items_ := items1 }

/-- Source: `SimpleVector(std::initializer_list<Type> init)`; the list is a block of its own. -/
def ctorInit (fresh : Option (Nat → α)) (init : List α) : Except Fault (SimpleVector α) :=
  match ArrayPtr.create fresh init.length with
  | .error e => .error e
  | .ok items =>
    let self : SimpleVector α := ⟨items, init.length, init.length⟩
    match std_copy init 0 init.length self.items_ self.begin_ with
    | none => .error .Undefined
    | some items1 => .ok { self with items_ := items1 }

/-- Source: `SimpleVector(const ReserveProxyObj& proxy)`: the members take their default
initialisers, then `Reserve` runs. -/
def ctorReserve (fresh : Option (Nat → α)) (proxy : ReserveProxyObj) :
    Except Fault (SimpleVector α) :=
  match Reserve fresh (⟨[], 0, 0⟩ : SimpleVector α) proxy.GetReserveSize with
  | (_, .error e) => .error e
  | (self, .ok _) => .ok self

/-- Source: `SimpleVector(SimpleVector&& other)`: the new object and `other` after the call. -/
def moveCtor (other : SimpleVector α) : SimpleVector α × SimpleVector α :=
  let items := ArrayPtr.moveFrom other.items_
  let size := std_exchange other.size_ 0
  let capacity := std_exchange other.capacity_ 0
  (⟨items.1, size.1, capacity.1⟩, ⟨items.2, size.2, capacity.2⟩)

/-- Source: `SimpleVector& operator=(SimpleVector&& other)` for `other` a different object: `*this`
and `other` after the call. -/
def moveAssign (_v other : SimpleVector α) : SimpleVector α × SimpleVector α :=
  let items := ArrayPtr.moveFrom other.items_
  let size := std_exchange other.size_ 0
  let capacity := std_exchange other.capacity_ 0
  (⟨items.1, size.1, capacity.1⟩, ⟨items.2, size.2, capacity.2⟩)

/-- Source: `SimpleVector& operator=(const SimpleVector& rhs)` for `rhs` a different object
(`this != &rhs`): copy-construct `tmp_copy`, then `swap` with it. -/
def copyAssign (fresh : Option (Nat → α)) (v rhs : SimpleVector α) : Call α Unit :=
  match copyCtor fresh rhs with
  | .error e => (v, .error e)
  | .ok tmp_copy => ((swap v tmp_copy).1, .ok ())

/-- Source: `bool operator==(const SimpleVector<Type>& lhs, const SimpleVector<Type>& rhs)`. -/
def operatorEq [BEq α] (lhs rhs : SimpleVector α) : Except Fault Bool :=
  if lhs.GetSize = rhs.GetSize then
    match std_equal lhs.items_ lhs.begin_ lhs.end_ rhs.items_ rhs.begin_ with
    | none => .error .Undefined
    | some r => .ok r
  else .ok false

/-- Source: `bool operator!=(const SimpleVector<Type>& lhs, const SimpleVector<Type>& rhs)`. -/
def operatorNe [BEq α] (lhs rhs : SimpleVector α) : Except Fault Bool :=
  match operatorEq lhs rhs with
  | .error e => .error e
  | .ok r => .ok (!r)

/-- Source: `bool operator<(const SimpleVector<Type>& lhs, const SimpleVector<Type>& rhs)`. -/
def operatorLt [LT α] [DecidableRel (fun (x y : α) => x < y)] (lhs rhs : SimpleVector α) :
    Except Fault Bool :=
  match std_lexicographical_compare lhs.items_ lhs.begin_ lhs.end_
      rhs.items_ rhs.begin_ rhs.end_ with
  | none => .error .Undefined
  | some r => .ok r

/-- Source: `bool operator<=(const SimpleVector<Type>& lhs, const SimpleVector<Type>& rhs)`:
`(lhs == rhs) || (lhs < rhs)`, the right operand evaluated only when the left is false. -/
def operatorLe [BEq α] [LT α] [DecidableRel (fun (x y : α) => x < y)]
    (lhs rhs : SimpleVector α) : Except Fault Bool :=
  match operatorEq lhs rhs with
  | .error e => .error e
  | .ok true => .ok true
  | .ok false => operatorLt lhs rhs

/-- Source: `bool operator>(const SimpleVector<Type>& lhs, const SimpleVector<Type>& rhs)`. -/
def operatorGt [LT α] [DecidableRel (fun (x y : α) => x < y)] (lhs rhs : SimpleVector α) :
    Except Fault Bool :=
  operatorLt rhs lhs

/-- Source: `bool operator>=(const SimpleVector<Type>& lhs, const SimpleVector<Type>& rhs)`:
`(lhs == rhs) || (rhs < lhs)`. -/
def operatorGe [BEq α] [LT α] [DecidableRel (fun (x y : α) => x < y)]
    (lhs rhs : SimpleVector α) : Except Fault Bool :=
  match operatorEq lhs rhs with
  | .error e => .error e
  | .ok true => .ok true
  | .ok false => operatorLt rhs lhs

/-- The live elements, offsets `[0, size)`, in index order: what iteration from `begin()` to
`end()` visits. -/
def contents (v : SimpleVector α) : List α := v.items_.take v.size_

/-- The live elements lie inside the block: every offset below `size_` is allocated. -/
def Stored (v : SimpleVector α) : Prop := v.size_ ≤ v.items_.length

/-- The block backs the counters: every offset below `size_` and every offset below
`capacity_` is allocated. -/
def Backed (v : SimpleVector α) : Prop :=
  v.size_ ≤ v.items_.length ∧ v.capacity_ ≤ v.items_.length

/-- The two counters of an object are in order and its live elements are stored. -/
def Sound (v : SimpleVector α) : Prop := v.size_ ≤ v.items_.length ∧ v.size_ ≤ v.capacity_

/-- The reference is one a caller can form: to an object outside the block, or to a live
element of the array. -/
def RefersToLive (value : ValueRef α) (v : SimpleVector α) : Prop :=
  match value with
  | .object _ => True
  | .slot offset => offset < v.size_

instance (v : SimpleVector α) : Decidable (Stored v) := by unfold Stored; infer_instance

instance (value : ValueRef α) (v : SimpleVector α) : Decidable (RefersToLive value v) := by
  cases value <;> unfold RefersToLive <;> infer_instance

instance (v : SimpleVector α) : Decidable (Backed v) := by unfold Backed; infer_instance

instance (v : SimpleVector α) : Decidable (Sound v) := by unfold Sound; infer_instance

/-- A run of `PushBack` calls, one per entry of `xs`, in order; stops at the first call that
does not return. -/
def pushBackAll (fresh : Option (Nat → α)) : SimpleVector α → List α →
    Except Fault (SimpleVector α)
  | v, [] => .ok v
  | v, x :: xs =>
    match PushBack fresh v x with
    | (_, .error e) => .error e
    | (v1, .ok _) => pushBackAll fresh v1 xs

/-- The number of calls, among those the run `pushBackAll` makes, that find
`size_ + 1 > capacity_` and so ask for new storage. -/
def pushBackGrowths (fresh : Option (Nat → α)) : SimpleVector α → List α → Nat
  | _, [] => 0
  | v, x :: xs =>
    (if v.size_ + 1 > v.capacity_ then 1 else 0) +
      match PushBack fresh v x with
      | (_, .error _) => 0
      | (v1, .ok _) => pushBackGrowths fresh v1 xs

/-- The objects a program can hold: those made by a constructor, and those left by a public
member function called on such an object, whether the call returned or threw. -/
inductive Reachable [Inhabited α] : SimpleVector α → Prop
  | ctor : Reachable ctor
  | ctorSize (fresh : Option (Nat → α)) (size : Nat) (v : SimpleVector α) :
      ctorSize fresh size = .ok v → Reachable v
  | ctorSizeValue (fresh : Option (Nat → α)) (size : Nat) (value : α) (v : SimpleVector α) :
      ctorSizeValue fresh size value = .ok v → Reachable v
  | ctorInit (fresh : Option (Nat → α)) (init : List α) (v : SimpleVector α) :
      ctorInit fresh init = .ok v → Reachable v
  | ctorReserve (fresh : Option (Nat → α)) (proxy : ReserveProxyObj) (v : SimpleVector α) :
      ctorReserve fresh proxy = .ok v → Reachable v
  | copyCtor (fresh : Option (Nat → α)) (other v : SimpleVector α) :
      Reachable other → copyCtor fresh other = .ok v → Reachable v
  | moveCtor_new (other : SimpleVector α) : Reachable other → Reachable (moveCtor other).1
  | moveCtor_source (other : SimpleVector α) : Reachable other → Reachable (moveCtor other).2
  | copyAssign (fresh : Option (Nat → α)) (v rhs v1 : SimpleVector α) (r : Except Fault Unit) :
      Reachable v → Reachable rhs → copyAssign fresh v rhs = (v1, r) → r ≠ .error .Undefined →
      Reachable v1
  | moveAssign_target (v other : SimpleVector α) :
      Reachable v → Reachable other → Reachable (moveAssign v other).1
  | moveAssign_source (v other : SimpleVector α) :
      Reachable v → Reachable other → Reachable (moveAssign v other).2
  | subscriptAssign (v v1 : SimpleVector α) (index : Nat) (x : α) (r : Except Fault Unit) :
      Reachable v → subscriptAssign v index x = (v1, r) → r ≠ .error .Undefined → Reachable v1
  | At (v v1 : SimpleVector α) (index : Nat) (r : Except Fault α) :
      Reachable v → At v index = (v1, r) → r ≠ .error .Undefined → Reachable v1
  | PushBack (fresh : Option (Nat → α)) (v v1 : SimpleVector α) (item : α)
      (r : Except Fault Unit) :
      Reachable v → PushBack fresh v item = (v1, r) → r ≠ .error .Undefined → Reachable v1
  | Insert (fresh : Option (Nat → α)) (v v1 : SimpleVector α) (pos : Nat)
      (value : ValueRef α) (r : Except Fault Nat) :
      Reachable v → Insert fresh v pos value = (v1, r) → r ≠ .error .Undefined → Reachable v1
  | Erase (v v1 : SimpleVector α) (pos : Nat) (r : Except Fault Nat) :
      Reachable v → Erase v pos = (v1, r) → r ≠ .error .Undefined → Reachable v1
  | PopBack (v v1 : SimpleVector α) (r : Except Fault Unit) :
      Reachable v → PopBack v = (v1, r) → r ≠ .error .Undefined → Reachable v1
  | Clear (v : SimpleVector α) : Reachable v → Reachable (Clear v)
  | Resize (fresh : Option (Nat → α)) (v v1 : SimpleVector α) (new_size : Nat)
      (r : Except Fault Unit) :
      Reachable v → Resize fresh v new_size = (v1, r) → r ≠ .error .Undefined → Reachable v1
  | Reserve (fresh : Option (Nat → α)) (v v1 : SimpleVector α) (capacity : Nat)
      (r : Except Fault Unit) :
      Reachable v → Reserve fresh v capacity = (v1, r) → r ≠ .error .Undefined → Reachable v1
  | swap_this (v other : SimpleVector α) :
      Reachable v → Reachable other → Reachable (swap v other).1
  | swap_other (v other : SimpleVector α) :
      Reachable v → Reachable other → Reachable (swap v other).2

end SimpleVector

/-! ## The demonstration driver -/

/-- The loop `for (auto& e : v) std::cout << e << " "` of `PrintSimpleVector`: the values
read from offset `first` on, `n` of them. -/
def printLoop (v : SimpleVector Int) : Nat → Nat → Except Fault (List Int)
  | 0, _ => .ok []
  | n + 1, first =>
    match ArrayPtr.load v.items_ first with
    | none => .error .Undefined
    | some e =>
      match printLoop v n (first + 1) with
      | .error f => .error f
      | .ok rest => .ok (e :: rest)

/-- Source: `void PrintSimpleVector(SimpleVector<int> v)`: the parameter is passed by value, so the
call copy-constructs it; the result is the line written to standard output. -/
def PrintSimpleVector (fresh : Option (Nat → Int)) (arg : SimpleVector Int) :
    Except Fault (List Int) :=
  match SimpleVector.copyCtor fresh arg with
  | .error f => .error f
  | .ok v => printLoop v (v.end_ - v.begin_) v.begin_

/-- The loop `for (size_t i = 0; i < size; ++i) example_vector.PushBack(i)` of `main`, with
`n` iterations left. -/
def pushLoop (fresh : Option (Nat → Int)) : Nat → Nat → SimpleVector Int →
    Except Fault (SimpleVector Int)
  | 0, _, v => .ok v
  | n + 1, i, v =>
    match SimpleVector.PushBack fresh v (Int.ofNat i) with
    | (_, .error f) => .error f
    | (v1, .ok _) => pushLoop fresh n (i + 1) v1

/-- The loop `for (i = 0; i < example_vector.GetSize(); i++) example_vector[i] += 1` of
`main`, with `n` iterations left. -/
def incrementLoop : Nat → Nat → SimpleVector Int → Except Fault (SimpleVector Int)
  | 0, _, v => .ok v
  | n + 1, i, v =>
    match SimpleVector.subscript v i with
    | .error f => .error f
    | .ok e =>
      match SimpleVector.subscriptAssign v i (e + 1) with
      | (_, .error f) => .error f
      | (v1, .ok _) => incrementLoop n (i + 1) v1

/-- Source: `int main()`: returns the lines written to standard output, and `example_vector`
as it is when `main` returns. -/
def main (fresh : Option (Nat → Int)) : Except Fault (List (List Int) × SimpleVector Int) := do
  let example_vector : SimpleVector Int := SimpleVector.ctor
  let size := 10
  let example_vector ← pushLoop fresh (size - 0) 0 example_vector
  let line1 ← PrintSimpleVector fresh example_vector
  let (example_vector, r) := SimpleVector.Insert fresh example_vector example_vector.begin_ (.object 13)
  let _ ← r
  let (example_vector, r) := SimpleVector.Insert fresh example_vector example_vector.end_ (.object 14)
  let _ ← r
  let (example_vector, r) :=
    SimpleVector.Insert fresh example_vector (example_vector.begin_ + 3) (.object 15)
  let _ ← r
  let line2 ← PrintSimpleVector fresh example_vector
  let (example_vector, r) := SimpleVector.Erase example_vector example_vector.begin_
  let _ ← r
  let line3 ← PrintSimpleVector fresh example_vector
  let example_vector ← incrementLoop (example_vector.GetSize - 0) 0 example_vector
  let line4 ← PrintSimpleVector fresh example_vector
  return ([line1, line2, line3, line4], example_vector)

/-- The size and the live elements of `example_vector` when `main` returns. -/
def mainResult (r : Except Fault (List (List Int) × SimpleVector Int)) :
    Option (Nat × List Int) :=
  match r with
  | .ok p => some (p.2.GetSize, p.2.contents)
  | .error _ => none

/-! ## The loops of the standard algorithms, slot by slot -/

theorem ArrayPtr.load_eq {α : Type} (p : ArrayPtr α) (i : Nat) (h : i < p.length) :
    ArrayPtr.load p i = some (p.get ⟨i, h⟩) := by
  simp [ArrayPtr.load, List.getElem?_eq_getElem h]

theorem ArrayPtr.store_eq {α : Type} (p : ArrayPtr α) (i : Nat) (x : α) (h : i < p.length) :
    ArrayPtr.store p i x = some (p.set i x) := by
  simp [ArrayPtr.store, h]

/-- Lemma: `std::copy` between blocks, with both ranges inside their blocks, returns a block of the
destination's length that holds the source range at the destination offsets and the old
destination everywhere else. -/
theorem copyLoop_spec {α : Type} (src : ArrayPtr α) (n : Nat) :
    ∀ (first : Nat) (dst : ArrayPtr α) (d : Nat),
      first + n ≤ src.length → d + n ≤ dst.length →
      ∃ r, copyLoop src n first dst d = some r ∧ r.length = dst.length ∧
        ∀ j, r[j]? = if d ≤ j ∧ j < d + n then src[first + (j - d)]? else dst[j]? := by
  induction n with
  | zero =>
    intro first dst d _ _
    refine ⟨dst, rfl, rfl, fun j => ?_⟩
    have : ¬ (d ≤ j ∧ j < d + 0) := by omega
    rw [if_neg this]
  | succ n ih =>
    intro first dst d h1 h2
    have hf : first < src.length := by omega
    have hd : d < dst.length := by omega
    obtain ⟨r, hr, hlen, hget⟩ := ih (first + 1) (dst.set d (src.get ⟨first, hf⟩)) (d + 1)
      (by omega) (by simp; omega)
    refine ⟨r, ?_, by simpa using hlen, fun j => ?_⟩
    · simp only [copyLoop, ArrayPtr.load_eq src first hf, ArrayPtr.store_eq dst d _ hd, hr]
    · rw [hget j]
      by_cases hj : d + 1 ≤ j ∧ j < d + 1 + n
      · have hj2 : d ≤ j ∧ j < d + (n + 1) := by omega
        have he : first + 1 + (j - (d + 1)) = first + (j - d) := by omega
        rw [if_pos hj, if_pos hj2, he]
      · by_cases hjd : j = d
        · subst hjd
          have hj2 : j ≤ j ∧ j < j + (n + 1) := by omega
          rw [if_neg hj, if_pos hj2, Nat.sub_self, Nat.add_zero,
            List.getElem?_set_self hd, List.getElem?_eq_getElem hf]
          rfl
        · have hj2 : ¬ (d ≤ j ∧ j < d + (n + 1)) := by omega
          rw [if_neg hj, if_neg hj2, List.getElem?_set_ne (Ne.symm hjd)]

/-- Lemma: `std::copy` inside one block towards the front (`d ≤ first`): every slot read still
holds its original value, so the result is the source range laid over the destination
offsets. -/
theorem copyWithinLoop_spec {α : Type} (n : Nat) :
    ∀ (first : Nat) (buf : ArrayPtr α) (d : Nat),
      first + n ≤ buf.length → d ≤ first →
      ∃ r, copyWithinLoop n first buf d = some r ∧ r.length = buf.length ∧
        ∀ j, r[j]? = if d ≤ j ∧ j < d + n then buf[first + (j - d)]? else buf[j]? := by
  induction n with
  | zero =>
    intro first buf d _ _
    refine ⟨buf, rfl, rfl, fun j => ?_⟩
    have : ¬ (d ≤ j ∧ j < d + 0) := by omega
    rw [if_neg this]
  | succ n ih =>
    intro first buf d h1 h2
    have hf : first < buf.length := by omega
    have hd : d < buf.length := by omega
    obtain ⟨r, hr, hlen, hget⟩ := ih (first + 1) (buf.set d (buf.get ⟨first, hf⟩)) (d + 1)
      (by simp; omega) (by omega)
    refine ⟨r, ?_, by simpa using hlen, fun j => ?_⟩
    · simp only [copyWithinLoop, ArrayPtr.load_eq buf first hf, ArrayPtr.store_eq buf d _ hd, hr]
    · rw [hget j]
      by_cases hj : d + 1 ≤ j ∧ j < d + 1 + n
      · have hj2 : d ≤ j ∧ j < d + (n + 1) := by omega
        have he : first + 1 + (j - (d + 1)) = first + (j - d) := by omega
        have hne : d ≠ first + (j - d) := by omega
        rw [if_pos hj, if_pos hj2, he, List.getElem?_set_ne hne]
      · by_cases hjd : j = d
        · subst hjd
          have hj2 : j ≤ j ∧ j < j + (n + 1) := by omega
          rw [if_neg hj, if_pos hj2, Nat.sub_self, Nat.add_zero,
            List.getElem?_set_self hd, List.getElem?_eq_getElem hf]
          rfl
        · have hj2 : ¬ (d ≤ j ∧ j < d + (n + 1)) := by omega
          rw [if_neg hj, if_neg hj2, List.getElem?_set_ne (Ne.symm hjd)]

/-- Lemma: `std::copy_backward` inside one block towards the back (`last ≤ d_last`): every slot
read still holds its original value, so the `n` slots ending at `d_last` receive the `n`
slots ending at `last`. -/
theorem copyBackwardLoop_spec {α : Type} (n : Nat) :
    ∀ (last : Nat) (buf : ArrayPtr α) (d_last : Nat),
      n ≤ last → last ≤ d_last → d_last ≤ buf.length →
      ∃ r, copyBackwardLoop n last buf d_last = some r ∧ r.length = buf.length ∧
        ∀ j, r[j]? = if d_last - n ≤ j ∧ j < d_last then buf[j - (d_last - last)]?
          else buf[j]? := by
  induction n with
  | zero =>
    intro last buf d_last _ _ _
    refine ⟨buf, rfl, rfl, fun j => ?_⟩
    have : ¬ (d_last - 0 ≤ j ∧ j < d_last) := by omega
    rw [if_neg this]
  | succ n ih =>
    intro last buf d_last h1 h2 h3
    have hl : last - 1 < buf.length := by omega
    have hd : d_last - 1 < buf.length := by omega
    have hz : ¬ (last = 0 ∨ d_last = 0) := by omega
    obtain ⟨r, hr, hlen, hget⟩ := ih (last - 1) (buf.set (d_last - 1) (buf.get ⟨last - 1, hl⟩))
      (d_last - 1) (by omega) (by omega) (by simp; omega)
    refine ⟨r, ?_, by simpa using hlen, fun j => ?_⟩
    · simp only [copyBackwardLoop, if_neg hz, ArrayPtr.load_eq buf (last - 1) hl,
        ArrayPtr.store_eq buf (d_last - 1) _ hd, hr]
    · rw [hget j]
      by_cases hj : d_last - 1 - n ≤ j ∧ j < d_last - 1
      · have hj2 : d_last - (n + 1) ≤ j ∧ j < d_last := by omega
        have he : j - (d_last - 1 - (last - 1)) = j - (d_last - last) := by omega
        have hne : d_last - 1 ≠ j - (d_last - last) := by omega
        rw [if_pos hj, if_pos hj2, he, List.getElem?_set_ne hne]
      · by_cases hjd : j = d_last - 1
        · subst hjd
          have hj2 : d_last - (n + 1) ≤ d_last - 1 ∧ d_last - 1 < d_last := by omega
          have he : d_last - 1 - (d_last - last) = last - 1 := by omega
          rw [if_neg hj, if_pos hj2, he, List.getElem?_set_self hd, List.getElem?_eq_getElem hl]
          rfl
        · have hj2 : ¬ (d_last - (n + 1) ≤ j ∧ j < d_last) := by omega
          rw [if_neg hj, if_neg hj2, List.getElem?_set_ne (Ne.symm hjd)]

/-- Lemma: `std::fill` over a range inside the block writes the value to exactly that range. -/
theorem fillLoop_spec {α : Type} (x : α) (n : Nat) :
    ∀ (first : Nat) (buf : ArrayPtr α),
      first + n ≤ buf.length →
      ∃ r, fillLoop x n first buf = some r ∧ r.length = buf.length ∧
        ∀ j, r[j]? = if first ≤ j ∧ j < first + n then some x else buf[j]? := by
  induction n with
  | zero =>
    intro first buf _
    refine ⟨buf, rfl, rfl, fun j => ?_⟩
    have : ¬ (first ≤ j ∧ j < first + 0) := by omega
    rw [if_neg this]
  | succ n ih =>
    intro first buf h1
    have hf : first < buf.length := by omega
    obtain ⟨r, hr, hlen, hget⟩ := ih (first + 1) (buf.set first x) (by simp; omega)
    refine ⟨r, ?_, by simpa using hlen, fun j => ?_⟩
    · simp only [fillLoop, ArrayPtr.store_eq buf first _ hf, hr]
    · rw [hget j]
      by_cases hj : first + 1 ≤ j ∧ j < first + 1 + n
      · have hj2 : first ≤ j ∧ j < first + (n + 1) := by omega
        rw [if_pos hj, if_pos hj2]
      · by_cases hjd : j = first
        · subst hjd
          have hj2 : j ≤ j ∧ j < j + (n + 1) := by omega
          rw [if_neg hj, if_pos hj2, List.getElem?_set_self hf]
        · have hj2 : ¬ (first ≤ j ∧ j < first + (n + 1)) := by omega
          rw [if_neg hj, if_neg hj2, List.getElem?_set_ne (Ne.symm hjd)]

/-- Lemma: `std::equal` over ranges inside their blocks compares the two ranges as lists. -/
theorem equalLoop_spec {α : Type} [BEq α] (a b : ArrayPtr α) (n : Nat) :
    ∀ (first1 first2 : Nat), first1 + n ≤ a.length → first2 + n ≤ b.length →
      equalLoop a b n first1 first2
        = some (((a.drop first1).take n) == ((b.drop first2).take n)) := by
  induction n with
  | zero =>
    intro first1 first2 _ _
    simp only [equalLoop, List.take_zero]
    rfl
  | succ n ih =>
    intro first1 first2 h1 h2
    have hf1 : first1 < a.length := by omega
    have hf2 : first2 < b.length := by omega
    rw [List.drop_eq_getElem_cons hf1, List.drop_eq_getElem_cons hf2, List.take_succ_cons,
      List.take_succ_cons]
    simp only [equalLoop, ArrayPtr.load_eq a first1 hf1, ArrayPtr.load_eq b first2 hf2]
    rw [ih (first1 + 1) (first2 + 1) (by omega) (by omega)]
    show _ = some (List.beq _ _)
    rw [List.beq]
    by_cases hxy : (a.get ⟨first1, hf1⟩ == b.get ⟨first2, hf2⟩) = true
    · rw [if_pos hxy]
      have : (a[first1] == b[first2]) = true := hxy
      rw [this, Bool.true_and]
      rfl
    · rw [if_neg hxy]
      have : (a[first1] == b[first2]) = false := by
        simpa using hxy
      rw [this, Bool.false_and]

/-! ### What a loop that ran to its end says about the blocks -/

theorem ArrayPtr.store_some {α : Type} {p r : ArrayPtr α} {i : Nat} {x : α}
    (h : ArrayPtr.store p i x = some r) : i < p.length ∧ r = p.set i x := by
  unfold ArrayPtr.store at h
  split at h
  · exact ⟨by assumption, by simpa using h.symm⟩
  · simp at h

theorem copyLoop_length {α : Type} (src : ArrayPtr α) (n : Nat) :
    ∀ (first : Nat) (dst : ArrayPtr α) (d : Nat) (r : ArrayPtr α),
      copyLoop src n first dst d = some r →
      r.length = dst.length ∧ (0 < n → d + n ≤ dst.length) := by
  induction n with
  | zero =>
    intro first dst d r h
    simp only [copyLoop, Option.some.injEq] at h
    subst h
    exact ⟨rfl, by omega⟩
  | succ n ih =>
    intro first dst d r h
    simp only [copyLoop] at h
    split at h
    · simp at h
    · split at h
      · simp at h
      · rename_i dst1 hs
        obtain ⟨hlt, rfl⟩ := ArrayPtr.store_some hs
        obtain ⟨h1, h2⟩ := ih _ _ _ _ h
        simp only [List.length_set] at h1 h2
        refine ⟨h1, fun _ => ?_⟩
        by_cases hn : 0 < n
        · have := h2 hn
          omega
        · omega

theorem copyWithinLoop_length {α : Type} (n : Nat) :
    ∀ (first : Nat) (buf : ArrayPtr α) (d : Nat) (r : ArrayPtr α),
      copyWithinLoop n first buf d = some r → r.length = buf.length := by
  induction n with
  | zero =>
    intro first buf d r h
    simp only [copyWithinLoop, Option.some.injEq] at h
    subst h
    rfl
  | succ n ih =>
    intro first buf d r h
    simp only [copyWithinLoop] at h
    split at h
    · simp at h
    · split at h
      · simp at h
      · rename_i buf1 hs
        obtain ⟨_, rfl⟩ := ArrayPtr.store_some hs
        simpa using ih _ _ _ _ h

theorem copyBackwardLoop_length {α : Type} (n : Nat) :
    ∀ (last : Nat) (buf : ArrayPtr α) (d_last : Nat) (r : ArrayPtr α),
      copyBackwardLoop n last buf d_last = some r →
      r.length = buf.length ∧ (0 < n → d_last ≤ buf.length) := by
  induction n with
  | zero =>
    intro last buf d_last r h
    simp only [copyBackwardLoop, Option.some.injEq] at h
    subst h
    exact ⟨rfl, by omega⟩
  | succ n ih =>
    intro last buf d_last r h
    simp only [copyBackwardLoop] at h
    split at h
    · simp at h
    · split at h
      · simp at h
      · split at h
        · simp at h
        · rename_i buf1 hs
          obtain ⟨hlt, rfl⟩ := ArrayPtr.store_some hs
          obtain ⟨h1, _⟩ := ih _ _ _ _ h
          simp only [List.length_set] at h1
          exact ⟨h1, fun _ => by omega⟩

theorem fillLoop_length {α : Type} (x : α) (n : Nat) :
    ∀ (first : Nat) (buf r : ArrayPtr α),
      fillLoop x n first buf = some r → r.length = buf.length ∧ (0 < n → first + n ≤ buf.length) := by
  induction n with
  | zero =>
    intro first buf r h
    simp only [fillLoop, Option.some.injEq] at h
    subst h
    exact ⟨rfl, by omega⟩
  | succ n ih =>
    intro first buf r h
    simp only [fillLoop] at h
    split at h
    · simp at h
    · rename_i buf1 hs
      obtain ⟨hlt, rfl⟩ := ArrayPtr.store_some hs
      obtain ⟨h1, h2⟩ := ih _ _ _ h
      simp only [List.length_set] at h1 h2
      refine ⟨h1, fun _ => ?_⟩
      by_cases hn : 0 < n
      · have := h2 hn
        omega
      · omega

theorem ArrayPtr.create_length {α : Type} (fresh : Option (Nat → α)) (n : Nat)
    (items : ArrayPtr α) (h : ArrayPtr.create fresh n = .ok items) : items.length = n := by
  unfold ArrayPtr.create at h
  split at h
  · simp only [Except.ok.injEq] at h
    subst h
    simp_all
  · split at h
    · simp at h
    · simp only [Except.ok.injEq] at h
      subst h
      simp

theorem std_copy_length {α : Type} (src : ArrayPtr α) (first last : Nat) (dst : ArrayPtr α)
    (d : Nat) (r : ArrayPtr α) (h : std_copy src first last dst d = some r) :
    r.length = dst.length := by
  unfold std_copy at h
  split at h
  · exact (copyLoop_length src _ _ _ _ _ h).1
  · simp at h

theorem std_copy_within_length {α : Type} (buf : ArrayPtr α) (first last d : Nat)
    (r : ArrayPtr α) (h : std_copy_within buf first last d = some r) :
    r.length = buf.length := by
  unfold std_copy_within at h
  split at h
  · exact copyWithinLoop_length _ _ _ _ _ h
  · simp at h

theorem std_copy_backward_length {α : Type} (buf : ArrayPtr α) (first last d_last : Nat)
    (r : ArrayPtr α) (h : std_copy_backward buf first last d_last = some r) :
    r.length = buf.length := by
  unfold std_copy_backward at h
  split at h
  · exact (copyBackwardLoop_length _ _ _ _ _ h).1
  · simp at h

theorem std_fill_length {α : Type} (buf : ArrayPtr α) (first last : Nat) (x : α)
    (r : ArrayPtr α) (h : std_fill buf first last x = some r) :
    r.length = buf.length ∧ first ≤ last ∧ (first < last → last ≤ buf.length) := by
  unfold std_fill at h
  split at h
  · rename_i hle
    obtain ⟨h1, h2⟩ := fillLoop_length _ _ _ _ _ h
    refine ⟨h1, hle, fun hlt => ?_⟩
    have := h2 (by omega)
    omega
  · simp at h

/-! ### Inserting into and erasing from a list, slot by slot -/

theorem getElem?_insert_at {α : Type} (l : List α) (p : Nat) (x : α) (hp : p ≤ l.length)
    (j : Nat) :
    (l.take p ++ [x] ++ l.drop p)[j]? =
      if j < p then l[j]? else if j = p then some x else l[j - 1]? := by
  have hlen : (l.take p).length = p := by simp [hp]
  by_cases h1 : j < p
  · rw [if_pos h1, List.append_assoc, List.getElem?_append_left (by omega),
      List.getElem?_take_of_lt h1]
  · rw [if_neg h1, List.append_assoc, List.getElem?_append_right (by omega), hlen]
    by_cases h2 : j = p
    · subst h2
      simp
    · rw [if_neg h2]
      have h3 : j - p = (j - p - 1) + 1 := by omega
      rw [h3, List.singleton_append, List.getElem?_cons_succ, List.getElem?_drop]
      congr 1
      omega

theorem getElem?_erase_at {α : Type} (l : List α) (p : Nat) (hp : p ≤ l.length) (j : Nat) :
    (l.take p ++ l.drop (p + 1))[j]? = if j < p then l[j]? else l[j + 1]? := by
  have hlen : (l.take p).length = p := by simp [hp]
  by_cases h1 : j < p
  · rw [if_pos h1, List.getElem?_append_left (by omega), List.getElem?_take_of_lt h1]
  · rw [if_neg h1, List.getElem?_append_right (by omega), hlen, List.getElem?_drop]
    congr 1
    omega

/-! ## The member functions on objects whose block backs their counters -/

theorem ArrayPtr.create_some {α : Type} (f : Nat → α) (n : Nat) :
    ArrayPtr.create (some f) n = .ok ((List.range n).map f) := by
  unfold ArrayPtr.create
  split
  · subst_vars; rfl
  · rfl

namespace SimpleVector

variable {α : Type}

theorem contents_length (v : SimpleVector α) (h : Stored v) : v.contents.length = v.size_ := by
  unfold Stored at h
  simp [contents, h]

theorem contents_getElem? (v : SimpleVector α) (j : Nat) :
    v.contents[j]? = if j < v.size_ then v.items_[j]? else none := by
  simp [contents, List.getElem?_take]

theorem Backed.stored {v : SimpleVector α} (h : Backed v) : Stored v := h.1

/-- Lemma: `PushBack` on a backed object, the storage request granted: the call returns, the live
elements are the old ones followed by the new one, and the capacity follows the growth rule
of the source. -/
theorem PushBack_backed (f : Nat → α) (v : SimpleVector α) (x : α) (hb : Backed v) :
    ∃ v1, PushBack (some f) v x = (v1, .ok ()) ∧ v1.size_ = v.size_ + 1 ∧
      v1.contents = v.contents ++ [x] ∧ Backed v1 ∧
      v1.capacity_ = (if v.size_ + 1 > v.capacity_ then
        (if v.size_ = 0 then 1 else v.size_ * 2) else v.capacity_) := by
  obtain ⟨hs, hc⟩ := hb
  by_cases hg : v.size_ + 1 > v.capacity_
  · -- the growing path
    have hcap : v.size_ + 1 ≤ (if v.size_ = 0 then v.size_ + 1 else v.size_ * 2) := by
      split <;> omega
    have hrule : (if v.size_ = 0 then v.size_ + 1 else v.size_ * 2)
        = (if v.size_ = 0 then 1 else v.size_ * 2) := by
      split <;> omega
    generalize hnc : (if v.size_ = 0 then v.size_ + 1 else v.size_ * 2) = new_capacity
      at hcap hrule
    have hns : (if v.size_ = 0 then 1 else v.size_ + 1) = v.size_ + 1 := by
      split <;> omega
    obtain ⟨r, hr, hlen, hget⟩ := copyLoop_spec v.items_ v.size_ 0
      ((List.range new_capacity).map f) 0 (by omega) (by simp; omega)
    have hlen1 : r.length = new_capacity := by simpa using hlen
    refine ⟨⟨r.set v.size_ x, v.size_ + 1, new_capacity⟩, ?_, rfl, ?_, ?_, ?_⟩
    · simp only [PushBack, if_pos hg, hns, hnc, ArrayPtr.create_some, std_copy, begin_,
        Nat.add_sub_cancel, Nat.zero_le, if_true, Nat.sub_zero, hr,
        ArrayPtr.store_eq r v.size_ x (by omega)]
    · apply List.ext_getElem?
      intro j
      rw [contents_getElem?, List.getElem?_append, contents_length v hs, contents_getElem?]
      simp only [List.getElem?_set, hget]
      by_cases h1 : j < v.size_
      · have h2 : j < v.size_ + 1 := by omega
        have h3 : ¬ v.size_ = j := by omega
        have h4 : 0 ≤ j ∧ j < 0 + v.size_ := by omega
        simp [h1, h2, h3, h4]
      · by_cases h2 : j = v.size_
        · subst h2
          simp [hlen1]
          omega
        · have h3 : ¬ j < v.size_ + 1 := by omega
          have h4 : j - v.size_ ≠ 0 := by omega
          simp [h1, h3]
          omega
    · exact ⟨by simp; omega, by simp; omega⟩
    · simp only [if_pos hg]
      exact hrule
  · -- the path that writes in place
    have hlt : v.size_ < v.items_.length := by omega
    refine ⟨⟨v.items_.set v.size_ x, v.size_ + 1, v.capacity_⟩, ?_, rfl, ?_, ?_, ?_⟩
    · simp only [PushBack, if_neg hg, ArrayPtr.store_eq v.items_ v.size_ x hlt]
    · apply List.ext_getElem?
      intro j
      rw [contents_getElem?, List.getElem?_append, contents_length v hs, contents_getElem?]
      simp only [List.getElem?_set]
      by_cases h1 : j < v.size_
      · have h2 : j < v.size_ + 1 := by omega
        have h3 : ¬ v.size_ = j := by omega
        simp [h1, h2, h3]
      · by_cases h2 : j = v.size_
        · subst h2
          simp [hlt]
        · have h3 : ¬ j < v.size_ + 1 := by omega
          simp [h1, h3]
          omega
    · exact ⟨by simp; omega, by simp; omega⟩
    · simp only [if_neg hg]

/-- Reading through a reference to a live element, or to an object outside the block,
gives a value while the block still has its slots: the object's value, or what the slot
holds. -/
theorem read_of_refersToLive (value : ValueRef α) (v : SimpleVector α) (block : ArrayPtr α)
    (hval : RefersToLive value v) (hlen : v.size_ ≤ block.length) :
    ∃ x, value.read block = some x ∧ (∀ y, value = .object y → x = y) ∧
      (∀ k, value = .slot k → block[k]? = some x) := by
  cases value with
  | object y =>
    exact ⟨y, rfl, fun z hz => (by cases hz; rfl), fun k hk => (by cases hk)⟩
  | slot k =>
    have hk : k < block.length := by
      unfold RefersToLive at hval
      dsimp only at hval
      omega
    refine ⟨block.get ⟨k, hk⟩, ?_, fun z hz => (by cases hz), fun k1 hk1 => ?_⟩
    · simp only [ValueRef.read, ArrayPtr.load_eq block k hk]
    · cases hk1
      rw [List.getElem?_eq_getElem hk]
      rfl

/-- Lemma: `Insert` on a backed object at a valid position, the storage request granted, the
value parameter referring to an outside object or to a live element: the call returns the
position, and the live elements are the old ones with the value read through the parameter
put in at that position.  For an outside object that value is the object's; for a reference
to the element at offset `k` it is that element on the reallocating path and when
`k ≤ pos`, and the element before it, shifted into its slot, otherwise. -/
theorem Insert_live (f : Nat → α) (v : SimpleVector α) (pos : Nat) (value : ValueRef α)
    (hb : Backed v) (hp : pos ≤ v.size_) (hval : RefersToLive value v) :
    ∃ v1 x, Insert (some f) v pos value = (v1, .ok pos) ∧ v1.size_ = v.size_ + 1 ∧
      v1.contents = v.contents.take pos ++ [x] ++ v.contents.drop pos ∧ Backed v1 ∧
      v1.capacity_ = (if v.size_ + 1 > v.capacity_ then
        (if v.size_ = 0 then 1 else v.size_ * 2) else v.capacity_) ∧
      (∀ y, value = .object y → x = y) ∧
      (∀ k, value = .slot k →
        (if v.size_ + 1 > v.capacity_ ∨ k ≤ pos then v.items_[k]? else v.items_[k - 1]?)
          = some x) := by
  obtain ⟨hs, hc⟩ := hb
  have hpl : pos ≤ v.contents.length := by rw [contents_length v hs]; exact hp
  have hnp : ¬ ¬ pos ≤ v.size_ := not_not.mpr hp
  by_cases hg : v.size_ + 1 > v.capacity_
  · -- the reallocating path
    have hcap : v.size_ + 1 ≤ (if v.size_ = 0 then v.size_ + 1 else v.size_ * 2) := by
      split <;> omega
    have hrule : (if v.size_ = 0 then v.size_ + 1 else v.size_ * 2)
        = (if v.size_ = 0 then 1 else v.size_ * 2) := by
      split <;> omega
    generalize hnc : (if v.size_ = 0 then v.size_ + 1 else v.size_ * 2) = new_capacity
      at hcap hrule
    have hns : (if v.size_ = 0 then 1 else v.size_ + 1) = v.size_ + 1 := by
      split <;> omega
    obtain ⟨x, hx, hxobj, hxslot⟩ := read_of_refersToLive value v v.items_ hval hs
    obtain ⟨r1, hr1, hlen1, hget1⟩ := copyLoop_spec v.items_ pos 0
      ((List.range new_capacity).map f) 0 (by omega) (by simp; omega)
    have hl1 : r1.length = new_capacity := by simpa using hlen1
    obtain ⟨r3, hr3, hlen3, hget3⟩ := copyLoop_spec v.items_ (v.size_ - pos) pos
      (r1.set pos x) (pos + 1) (by omega) (by simp; omega)
    have hl3 : r3.length = new_capacity := by simpa [hl1] using hlen3
    refine ⟨⟨r3, v.size_ + 1, new_capacity⟩, x, ?_, rfl, ?_, ?_, ?_, hxobj, fun k hk => ?_⟩
    · simp only [Insert, begin_, Nat.sub_zero, if_neg hnp, if_pos hg, hns, hnc,
        ArrayPtr.create_some, std_copy, Nat.zero_le, if_true, hr1, hx,
        ArrayPtr.store_eq r1 pos x (by omega), Nat.add_sub_cancel, Nat.zero_add,
        if_pos hp, hr3]
    · apply List.ext_getElem?
      intro j
      rw [getElem?_insert_at _ _ _ hpl, contents_getElem?]
      dsimp only
      rw [hget3 j]
      by_cases h1 : j < pos
      · have h2 : j < v.size_ + 1 := by omega
        have h3 : ¬ (pos + 1 ≤ j ∧ j < pos + 1 + (v.size_ - pos)) := by omega
        have h4 : pos ≠ j := by omega
        have h5 : 0 ≤ j ∧ j < 0 + pos := by omega
        have h6 : j < v.size_ := by omega
        rw [if_pos h2, if_neg h3, List.getElem?_set_ne h4, hget1 j, if_pos h5, if_pos h1,
          contents_getElem?, if_pos h6, Nat.sub_zero, Nat.zero_add]
      · by_cases h2 : j = pos
        · subst h2
          have h3 : ¬ (j + 1 ≤ j ∧ j < j + 1 + (v.size_ - j)) := by omega
          have h4 : j < v.size_ + 1 := by omega
          have h5 : j < r1.length := by omega
          rw [if_pos h4, if_neg h3, List.getElem?_set_self h5, if_neg h1, if_pos rfl]
        · by_cases h3 : j < v.size_ + 1
          · have h4 : pos + 1 ≤ j ∧ j < pos + 1 + (v.size_ - pos) := by omega
            have h5 : pos + (j - (pos + 1)) = j - 1 := by omega
            have h6 : j - 1 < v.size_ := by omega
            rw [if_pos h3, if_pos h4, h5, if_neg h1, if_neg h2, contents_getElem?, if_pos h6]
          · have h4 : ¬ j - 1 < v.size_ := by omega
            rw [if_neg h3, if_neg h1, if_neg h2, contents_getElem?, if_neg h4]
    · exact ⟨by simp [hl3]; omega, by simp [hl3]⟩
    · simp only [if_pos hg]
      exact hrule
    · rw [if_pos (Or.inl hg)]
      exact hxslot k hk
  · -- the path that shifts in place
    have hlt : v.size_ + 1 ≤ v.items_.length := by omega
    obtain ⟨r1, hr1, hlen1, hget1⟩ := copyBackwardLoop_spec (v.size_ - pos) v.size_ v.items_
      (v.size_ + 1) (by omega) (by omega) hlt
    obtain ⟨x, hx, hxobj, hxslot⟩ := read_of_refersToLive value v r1 hval (by omega)
    refine ⟨⟨r1.set pos x, v.size_ + 1, v.capacity_⟩, x, ?_, rfl, ?_, ?_, ?_, hxobj,
      fun k hk => ?_⟩
    · simp only [Insert, begin_, Nat.sub_zero, if_neg hnp, if_neg hg, std_copy_backward,
        Nat.add_sub_cancel, if_pos hp, hr1, hx, ArrayPtr.store_eq r1 pos x (by omega),
        Nat.zero_add]
    · apply List.ext_getElem?
      intro j
      rw [getElem?_insert_at _ _ _ hpl, contents_getElem?]
      dsimp only
      by_cases h1 : j < pos
      · have h2 : j < v.size_ + 1 := by omega
        have h3 : ¬ (v.size_ + 1 - (v.size_ - pos) ≤ j ∧ j < v.size_ + 1) := by omega
        have h4 : pos ≠ j := by omega
        have h6 : j < v.size_ := by omega
        rw [if_pos h2, List.getElem?_set_ne h4, hget1 j, if_neg h3, if_pos h1,
          contents_getElem?, if_pos h6]
      · by_cases h2 : j = pos
        · subst h2
          have h4 : j < v.size_ + 1 := by omega
          have h5 : j < r1.length := by omega
          rw [if_pos h4, List.getElem?_set_self h5, if_neg h1, if_pos rfl]
        · by_cases h3 : j < v.size_ + 1
          · have h4 : v.size_ + 1 - (v.size_ - pos) ≤ j ∧ j < v.size_ + 1 := by omega
            have h5 : pos ≠ j := by omega
            have h6 : j - 1 < v.size_ := by omega
            have h7 : j - (v.size_ + 1 - v.size_) = j - 1 := by omega
            rw [if_pos h3, List.getElem?_set_ne h5, hget1 j, if_pos h4, h7, if_neg h1,
              if_neg h2, contents_getElem?, if_pos h6]
          · have h4 : ¬ j - 1 < v.size_ := by omega
            rw [if_neg h3, if_neg h1, if_neg h2, contents_getElem?, if_neg h4]
    · exact ⟨by simp [hlen1]; omega, by simp [hlen1]; omega⟩
    · simp only [if_neg hg]
    · have hread := hxslot k hk
      rw [hget1 k] at hread
      by_cases hkp : k ≤ pos
      · have h3 : ¬ (v.size_ + 1 - (v.size_ - pos) ≤ k ∧ k < v.size_ + 1) := by omega
        rw [if_neg h3] at hread
        rw [if_pos (Or.inr hkp)]
        exact hread
      · have hklive : k < v.size_ := by
          subst hk
          exact hval
        have h3 : v.size_ + 1 - (v.size_ - pos) ≤ k ∧ k < v.size_ + 1 := by omega
        have h7 : k - (v.size_ + 1 - v.size_) = k - 1 := by omega
        have hno : ¬ (v.size_ + 1 > v.capacity_ ∨ k ≤ pos) := by
          intro h
          rcases h with h | h
          · exact hg h
          · exact hkp h
        rw [if_pos h3, h7] at hread
        rw [if_neg hno]
        exact hread

/-- Lemma: `Insert` of an object outside the block, on a backed object at a valid position,
the storage request granted: the call returns the position, and the live elements are the
old ones with the value put in at that position. -/
theorem Insert_backed (f : Nat → α) (v : SimpleVector α) (pos : Nat) (value : α)
    (hb : Backed v) (hp : pos ≤ v.size_) :
    ∃ v1, Insert (some f) v pos (.object value) = (v1, .ok pos) ∧ v1.size_ = v.size_ + 1 ∧
      v1.contents = v.contents.take pos ++ [value] ++ v.contents.drop pos ∧ Backed v1 ∧
      v1.capacity_ = (if v.size_ + 1 > v.capacity_ then
        (if v.size_ = 0 then 1 else v.size_ * 2) else v.capacity_) := by
  obtain ⟨v1, x, h1, hsz, hc, hb1, hcap, hobj, _⟩ :=
    Insert_live f v pos (.object value) hb hp True.intro
  have hx : x = value := hobj value rfl
  subst hx
  exact ⟨v1, h1, hsz, hc, hb1, hcap⟩

/-- Lemma: `Erase` on an object whose live elements are stored, at a valid position: the call
returns the position, the live elements are the old ones without the one at that position,
and capacity and block length stay. -/
theorem Erase_stored (v : SimpleVector α) (pos : Nat) (hs : Stored v) (hp : pos < v.size_) :
    ∃ v1, Erase v pos = (v1, .ok pos) ∧ v1.size_ = v.size_ - 1 ∧
      v1.contents = v.contents.take pos ++ v.contents.drop (pos + 1) ∧
      v1.capacity_ = v.capacity_ ∧ v1.items_.length = v.items_.length := by
  unfold Stored at hs
  have hpl : pos ≤ v.contents.length := by rw [contents_length v hs]; omega
  have hnp : ¬ ¬ pos < v.size_ := not_not.mpr hp
  have hnz : v.size_ ≠ 0 := by omega
  obtain ⟨r1, hr1, hlen1, hget1⟩ := copyWithinLoop_spec (v.size_ - (pos + 1)) (pos + 1) v.items_
    pos (by omega) (by omega)
  refine ⟨⟨r1, v.size_ - 1, v.capacity_⟩, ?_, rfl, ?_, rfl, hlen1⟩
  · have hle : pos + 1 ≤ v.size_ := hp
    simp only [Erase, begin_, end_, Nat.sub_zero, if_neg hnp, if_pos hnz, std_copy_within,
      Nat.zero_add, if_pos hle, hr1]
  · apply List.ext_getElem?
    intro j
    rw [getElem?_erase_at _ _ hpl, contents_getElem?]
    dsimp only
    rw [hget1 j]
    by_cases h1 : j < pos
    · have h2 : j < v.size_ - 1 := by omega
      have h3 : ¬ (pos ≤ j ∧ j < pos + (v.size_ - (pos + 1))) := by omega
      have h4 : j < v.size_ := by omega
      rw [if_pos h2, if_neg h3, if_pos h1, contents_getElem?, if_pos h4]
    · by_cases h2 : j < v.size_ - 1
      · have h3 : pos ≤ j ∧ j < pos + (v.size_ - (pos + 1)) := by omega
        have h4 : pos + 1 + (j - pos) = j + 1 := by omega
        have h5 : j + 1 < v.size_ := by omega
        rw [if_pos h2, if_pos h3, h4, if_neg h1, contents_getElem?, if_pos h5]
      · have h5 : ¬ j + 1 < v.size_ := by omega
        rw [if_neg h2, if_neg h1, contents_getElem?, if_neg h5]

/-- The copy constructor on an object whose live elements are stored, the storage request
granted: the new object has a block of `size` slots holding the live elements, the size of
the source, and the capacity of the source. -/
theorem copyCtor_stored (f : Nat → α) (other : SimpleVector α) (hs : Stored other) :
    ∃ v, copyCtor (some f) other = .ok v ∧ v.size_ = other.size_ ∧
      v.capacity_ = other.capacity_ ∧ v.items_.length = other.size_ ∧
      v.contents = other.contents := by
  unfold Stored at hs
  obtain ⟨r, hr, hlen, hget⟩ := copyLoop_spec other.items_ other.size_ 0
    ((List.range other.size_).map f) 0 (by omega) (by simp)
  have hl : r.length = other.size_ := by simpa using hlen
  refine ⟨⟨r, other.size_, other.capacity_⟩, ?_, rfl, rfl, hl, ?_⟩
  · simp only [copyCtor, GetSize, GetCapacity, begin_, end_, ArrayPtr.create_some, std_copy,
      Nat.zero_le, if_true, Nat.sub_zero, hr]
  · apply List.ext_getElem?
    intro j
    rw [contents_getElem?, contents_getElem?]
    dsimp only
    by_cases h1 : j < other.size_
    · have h2 : 0 ≤ j ∧ j < 0 + other.size_ := by omega
      rw [if_pos h1, if_pos h1, hget j, if_pos h2, Nat.sub_zero, Nat.zero_add]
    · rw [if_neg h1, if_neg h1]

/-- Lemma: `operator==` on two objects whose live elements are stored compares the live elements as
lists: same length and equal entry by entry. -/
theorem operatorEq_stored [BEq α] (lhs rhs : SimpleVector α) (hl : Stored lhs)
    (hr : Stored rhs) : operatorEq lhs rhs = .ok (lhs.contents == rhs.contents) := by
  unfold Stored at hl hr
  by_cases hsz : lhs.size_ = rhs.size_
  · have h := equalLoop_spec lhs.items_ rhs.items_ lhs.size_ 0 0 (by omega) (by omega)
    rw [List.drop_zero, List.drop_zero] at h
    simp only [operatorEq, GetSize, begin_, end_, if_pos hsz, std_equal, Nat.zero_le, if_true,
      Nat.sub_zero, h, contents, ← hsz]
  · simp only [operatorEq, GetSize, if_neg hsz]
    have hne : lhs.contents.length ≠ rhs.contents.length := by
      rw [contents_length lhs hl, contents_length rhs hr]
      exact hsz
    have : (lhs.contents == rhs.contents) = false := by
      cases hb : (lhs.contents == rhs.contents) with
      | false => rfl
      | true =>
        exact absurd (List.length_eq_of_beq hb) hne
    rw [this]

/-! ## What every reachable object satisfies -/

theorem PushBack_sound (fresh : Option (Nat → α)) (v v1 : SimpleVector α) (x : α)
    (r : Except Fault Unit) (h : Sound v) (he : PushBack fresh v x = (v1, r))
    (hr : r ≠ .error .Undefined) : Sound v1 := by
  obtain ⟨hs, hc⟩ := h
  by_cases hg : v.size_ + 1 > v.capacity_
  · have hns : (if v.size_ = 0 then 1 else v.size_ + 1) = v.size_ + 1 := by
      split <;> omega
    have hcap : v.size_ + 1 ≤ (if v.size_ = 0 then v.size_ + 1 else v.size_ * 2) := by
      split <;> omega
    simp only [PushBack, if_pos hg, hns] at he
    generalize (if v.size_ = 0 then v.size_ + 1 else v.size_ * 2) = new_capacity at he hcap
    split at he
    · obtain ⟨rfl, rfl⟩ := Prod.mk.inj he
      exact ⟨hs, hc⟩
    · rename_i fresh_items hcreate
      have hlen := ArrayPtr.create_length _ _ _ hcreate
      split at he
      · obtain ⟨_, rfl⟩ := Prod.mk.inj he
        exact absurd rfl hr
      · rename_i items1 hcopy
        have hl1 := std_copy_length _ _ _ _ _ _ hcopy
        split at he
        · obtain ⟨_, rfl⟩ := Prod.mk.inj he
          exact absurd rfl hr
        · rename_i items2 hstore
          obtain ⟨_, rfl⟩ := ArrayPtr.store_some hstore
          obtain ⟨rfl, rfl⟩ := Prod.mk.inj he
          exact ⟨by simp only [List.length_set, hl1, hlen]; omega, hcap⟩
  · simp only [PushBack, if_neg hg] at he
    split at he
    · obtain ⟨_, rfl⟩ := Prod.mk.inj he
      exact absurd rfl hr
    · rename_i items hstore
      obtain ⟨hlt, rfl⟩ := ArrayPtr.store_some hstore
      obtain ⟨rfl, rfl⟩ := Prod.mk.inj he
      exact ⟨by simp only [List.length_set]; omega, by dsimp only; omega⟩

theorem Insert_sound (fresh : Option (Nat → α)) (v v1 : SimpleVector α) (pos : Nat)
    (x : ValueRef α) (r : Except Fault Nat) (h : Sound v) (he : Insert fresh v pos x = (v1, r))
    (hr : r ≠ .error .Undefined) : Sound v1 := by
  obtain ⟨hs, hc⟩ := h
  by_cases hp : pos ≤ v.size_
  · have hnp : ¬ ¬ pos ≤ v.size_ := not_not.mpr hp
    by_cases hg : v.size_ + 1 > v.capacity_
    · have hns : (if v.size_ = 0 then 1 else v.size_ + 1) = v.size_ + 1 := by
        split <;> omega
      have hcap : v.size_ + 1 ≤ (if v.size_ = 0 then v.size_ + 1 else v.size_ * 2) := by
        split <;> omega
      simp only [Insert, begin_, Nat.sub_zero, if_neg hnp, if_pos hg, hns] at he
      generalize (if v.size_ = 0 then v.size_ + 1 else v.size_ * 2) = new_capacity at he hcap
      split at he
      · obtain ⟨rfl, rfl⟩ := Prod.mk.inj he
        exact ⟨hs, hc⟩
      · rename_i fresh_items hcreate
        have hlen := ArrayPtr.create_length _ _ _ hcreate
        split at he
        · obtain ⟨_, rfl⟩ := Prod.mk.inj he
          exact absurd rfl hr
        · rename_i items1 hcopy
          have hl1 := std_copy_length _ _ _ _ _ _ hcopy
          split at he
          · obtain ⟨_, rfl⟩ := Prod.mk.inj he
            exact absurd rfl hr
          · split at he
            · obtain ⟨_, rfl⟩ := Prod.mk.inj he
              exact absurd rfl hr
            · rename_i items2 hstore
              obtain ⟨_, rfl⟩ := ArrayPtr.store_some hstore
              split at he
              · obtain ⟨_, rfl⟩ := Prod.mk.inj he
                exact absurd rfl hr
              · rename_i items3 hcopy3
                have hl3 := std_copy_length _ _ _ _ _ _ hcopy3
                obtain ⟨rfl, rfl⟩ := Prod.mk.inj he
                exact ⟨by simp only [hl3, List.length_set, hl1, hlen]; omega, hcap⟩
    · simp only [Insert, begin_, Nat.sub_zero, if_neg hnp, if_neg hg] at he
      split at he
      · obtain ⟨_, rfl⟩ := Prod.mk.inj he
        exact absurd rfl hr
      · rename_i items1 hcopy
        have hl1 := std_copy_backward_length _ _ _ _ _ hcopy
        unfold std_copy_backward at hcopy
        rw [if_pos (by omega)] at hcopy
        have hl2 := (copyBackwardLoop_length _ _ _ _ _ hcopy).2
        split at he
        · obtain ⟨_, rfl⟩ := Prod.mk.inj he
          exact absurd rfl hr
        · split at he
          · obtain ⟨_, rfl⟩ := Prod.mk.inj he
            exact absurd rfl hr
          · rename_i items2 hstore
            obtain ⟨hlt, rfl⟩ := ArrayPtr.store_some hstore
            obtain ⟨rfl, rfl⟩ := Prod.mk.inj he
            refine ⟨?_, by dsimp only; omega⟩
            simp only [List.length_set, hl1]
            by_cases hlast : pos = v.size_
            · omega
            · have := hl2 (by omega)
              omega
  · simp only [Insert, begin_, Nat.sub_zero, if_pos hp] at he
    obtain ⟨_, rfl⟩ := Prod.mk.inj he
    exact absurd rfl hr

theorem Erase_sound (v v1 : SimpleVector α) (pos : Nat) (r : Except Fault Nat) (h : Sound v)
    (he : Erase v pos = (v1, r)) (hr : r ≠ .error .Undefined) : Sound v1 := by
  obtain ⟨hs, hc⟩ := h
  by_cases hp : pos < v.size_
  · obtain ⟨v2, h2, hsz, _, hcap, hlen⟩ := Erase_stored v pos hs hp
    rw [h2] at he
    obtain ⟨rfl, _⟩ := Prod.mk.inj he
    exact ⟨by omega, by omega⟩
  · simp only [Erase, begin_, Nat.sub_zero, if_pos hp] at he
    obtain ⟨_, rfl⟩ := Prod.mk.inj he
    exact absurd rfl hr

theorem PopBack_sound (v v1 : SimpleVector α) (r : Except Fault Unit) (h : Sound v)
    (he : PopBack v = (v1, r)) (hr : r ≠ .error .Undefined) : Sound v1 := by
  obtain ⟨hs, hc⟩ := h
  unfold PopBack at he
  split at he
  · obtain ⟨rfl, _⟩ := Prod.mk.inj he
    exact ⟨by dsimp only; omega, by dsimp only; omega⟩
  · obtain ⟨_, rfl⟩ := Prod.mk.inj he
    exact absurd rfl hr

theorem At_same (v v1 : SimpleVector α) (index : Nat) (r : Except Fault α)
    (he : At v index = (v1, r)) : v1 = v := by
  unfold At at he
  split at he
  · exact (Prod.mk.inj he).1.symm
  · split at he <;> exact (Prod.mk.inj he).1.symm

theorem subscriptAssign_sound (v v1 : SimpleVector α) (index : Nat) (x : α)
    (r : Except Fault Unit) (h : Sound v) (he : subscriptAssign v index x = (v1, r))
    (hr : r ≠ .error .Undefined) : Sound v1 := by
  obtain ⟨hs, hc⟩ := h
  unfold subscriptAssign at he
  split at he
  · split at he
    · obtain ⟨_, rfl⟩ := Prod.mk.inj he
      exact absurd rfl hr
    · rename_i items hstore
      obtain ⟨_, rfl⟩ := ArrayPtr.store_some hstore
      obtain ⟨rfl, _⟩ := Prod.mk.inj he
      exact ⟨by simp only [List.length_set]; omega, hc⟩
  · obtain ⟨_, rfl⟩ := Prod.mk.inj he
    exact absurd rfl hr

theorem Reserve_sound (fresh : Option (Nat → α)) (v v1 : SimpleVector α) (capacity : Nat)
    (r : Except Fault Unit) (h : Sound v) (he : Reserve fresh v capacity = (v1, r))
    (hr : r ≠ .error .Undefined) : Sound v1 := by
  obtain ⟨hs, hc⟩ := h
  unfold Reserve at he
  split at he
  · split at he
    · obtain ⟨rfl, _⟩ := Prod.mk.inj he
      exact ⟨hs, hc⟩
    · rename_i fresh_items hcreate
      have hlen := ArrayPtr.create_length _ _ _ hcreate
      dsimp only at he
      split at he
      · obtain ⟨_, rfl⟩ := Prod.mk.inj he
        exact absurd rfl hr
      · rename_i items1 hcopy
        have hl1 := std_copy_length _ _ _ _ _ _ hcopy
        obtain ⟨rfl, _⟩ := Prod.mk.inj he
        exact ⟨by simp only [hl1, hlen]; omega, by dsimp only; omega⟩
  · obtain ⟨rfl, _⟩ := Prod.mk.inj he
    exact ⟨hs, hc⟩

theorem Resize_sound [Inhabited α] (fresh : Option (Nat → α)) (v v1 : SimpleVector α)
    (new_size : Nat) (r : Except Fault Unit) (h : Sound v)
    (he : Resize fresh v new_size = (v1, r)) (hr : r ≠ .error .Undefined) : Sound v1 := by
  obtain ⟨hs, hc⟩ := h
  unfold Resize at he
  split at he
  · split at he
    · obtain ⟨rfl, _⟩ := Prod.mk.inj he
      exact ⟨hs, hc⟩
    · rename_i fresh_items hcreate
      have hlen := ArrayPtr.create_length _ _ _ hcreate
      dsimp only at he
      split at he
      · obtain ⟨_, rfl⟩ := Prod.mk.inj he
        exact absurd rfl hr
      · rename_i items1 hcopy
        have hl1 := std_copy_length _ _ _ _ _ _ hcopy
        split at he
        · obtain ⟨_, rfl⟩ := Prod.mk.inj he
          exact absurd rfl hr
        · rename_i items2 hfill
          have hl2 := (std_fill_length _ _ _ _ _ hfill).1
          obtain ⟨rfl, _⟩ := Prod.mk.inj he
          exact ⟨by simp only [hl2, hl1, hlen]; omega, by dsimp only; omega⟩
  · split at he
    · dsimp only at he
      split at he
      · obtain ⟨_, rfl⟩ := Prod.mk.inj he
        exact absurd rfl hr
      · rename_i hge items1 hfill
        obtain ⟨hl1, _, hl2⟩ := std_fill_length _ _ _ _ _ hfill
        obtain ⟨rfl, _⟩ := Prod.mk.inj he
        refine ⟨?_, by dsimp only; omega⟩
        simp only [hl1]
        simp only [begin_, end_, Nat.zero_add] at hl2
        by_cases hlt : v.size_ < new_size
        · exact hl2 hlt
        · omega
    · obtain ⟨rfl, _⟩ := Prod.mk.inj he
      exact ⟨by dsimp only; omega, by dsimp only; omega⟩

theorem ctorSizeValue_sound (fresh : Option (Nat → α)) (size : Nat) (value : α)
    (v : SimpleVector α) (he : ctorSizeValue fresh size value = .ok v) : Sound v := by
  unfold ctorSizeValue at he
  split at he
  · simp at he
  · rename_i items hcreate
    have hlen := ArrayPtr.create_length _ _ _ hcreate
    dsimp only at he
    split at he
    · simp at he
    · rename_i items1 hfill
      have hl1 := (std_fill_length _ _ _ _ _ hfill).1
      simp only [Except.ok.injEq] at he
      subst he
      exact ⟨by simp only [hl1, hlen]; omega, by dsimp only; omega⟩

theorem ctorSize_sound [Inhabited α] (fresh : Option (Nat → α)) (size : Nat)
    (v : SimpleVector α) (he : ctorSize fresh size = .ok v) : Sound v :=
  ctorSizeValue_sound fresh size default v he

theorem ctorInit_sound (fresh : Option (Nat → α)) (init : List α) (v : SimpleVector α)
    (he : ctorInit fresh init = .ok v) : Sound v := by
  unfold ctorInit at he
  split at he
  · simp at he
  · rename_i items hcreate
    have hlen := ArrayPtr.create_length _ _ _ hcreate
    dsimp only at he
    split at he
    · simp at he
    · rename_i items1 hcopy
      have hl1 := std_copy_length _ _ _ _ _ _ hcopy
      simp only [Except.ok.injEq] at he
      subst he
      exact ⟨by simp only [hl1, hlen]; omega, by dsimp only; omega⟩

theorem ctorReserve_sound (fresh : Option (Nat → α)) (proxy : ReserveProxyObj)
    (v : SimpleVector α) (he : ctorReserve fresh proxy = .ok v) : Sound v := by
  unfold ctorReserve at he
  split at he
  · simp at he
  · rename_i self u hres
    simp only [Except.ok.injEq] at he
    subst he
    exact Reserve_sound fresh ⟨[], 0, 0⟩ _ _ _ ⟨by simp, by simp⟩ hres (by simp)

theorem copyCtor_sound (fresh : Option (Nat → α)) (other v : SimpleVector α) (h : Sound other)
    (he : copyCtor fresh other = .ok v) : Sound v := by
  obtain ⟨hs, hc⟩ := h
  unfold copyCtor at he
  split at he
  · simp at he
  · rename_i items hcreate
    have hlen := ArrayPtr.create_length _ _ _ hcreate
    dsimp only at he
    split at he
    · simp at he
    · rename_i items1 hcopy
      have hl1 := std_copy_length _ _ _ _ _ _ hcopy
      simp only [Except.ok.injEq] at he
      subst he
      exact ⟨by simp only [hl1, hlen, GetSize]; omega, by simp only [GetSize, GetCapacity]; omega⟩

theorem copyAssign_sound (fresh : Option (Nat → α)) (v rhs v1 : SimpleVector α)
    (r : Except Fault Unit) (h : Sound v) (h2 : Sound rhs)
    (he : copyAssign fresh v rhs = (v1, r)) : Sound v1 := by
  unfold copyAssign at he
  split at he
  · obtain ⟨rfl, _⟩ := Prod.mk.inj he
    exact h
  · rename_i tmp_copy hcopy
    obtain ⟨rfl, _⟩ := Prod.mk.inj he
    exact copyCtor_sound fresh rhs tmp_copy h2 hcopy

/-- Every reachable object has its counters in order and its live elements stored. -/
theorem Reachable.sound [Inhabited α] {v : SimpleVector α} (h : Reachable v) : Sound v := by
  induction h with
  | ctor => exact ⟨Nat.le_refl _, Nat.le_refl _⟩
  | ctorSize fresh size v he => exact ctorSize_sound fresh size v he
  | ctorSizeValue fresh size value v he => exact ctorSizeValue_sound fresh size value v he
  | ctorInit fresh init v he => exact ctorInit_sound fresh init v he
  | ctorReserve fresh proxy v he => exact ctorReserve_sound fresh proxy v he
  | copyCtor fresh other v _ he ih => exact copyCtor_sound fresh other v ih he
  | moveCtor_new other _ ih => exact ih
  | moveCtor_source other _ _ => exact ⟨Nat.le_refl _, Nat.le_refl _⟩
  | copyAssign fresh v rhs v1 r _ _ he _ ih1 ih2 => exact copyAssign_sound fresh v rhs v1 r ih1 ih2 he
  | moveAssign_target v other _ _ _ ih2 => exact ih2
  | moveAssign_source v other _ _ _ _ => exact ⟨Nat.le_refl _, Nat.le_refl _⟩
  | subscriptAssign v v1 index x r _ he hr ih => exact subscriptAssign_sound v v1 index x r ih he hr
  | At v v1 index r _ he _ ih => rw [At_same v v1 index r he]; exact ih
  | PushBack fresh v v1 item r _ he hr ih => exact PushBack_sound fresh v v1 item r ih he hr
  | Insert fresh v v1 pos value r _ he hr ih => exact Insert_sound fresh v v1 pos value r ih he hr
  | Erase v v1 pos r _ he hr ih => exact Erase_sound v v1 pos r ih he hr
  | PopBack v v1 r _ he hr ih => exact PopBack_sound v v1 r ih he hr
  | Clear v _ ih => exact ⟨Nat.zero_le _, Nat.zero_le _⟩
  | Resize fresh v v1 new_size r _ he hr ih => exact Resize_sound fresh v v1 new_size r ih he hr
  | Reserve fresh v v1 capacity r _ he hr ih => exact Reserve_sound fresh v v1 capacity r ih he hr
  | swap_this v other _ _ _ ih2 => exact ih2
  | swap_other v other _ _ ih1 _ => exact ih1

end SimpleVector

/-! ## The demonstration driver, phase by phase -/

theorem printLoop_spec (v : SimpleVector Int) (n : Nat) :
    ∀ first, first + n ≤ v.items_.length →
      printLoop v n first = .ok ((v.items_.drop first).take n) := by
  induction n with
  | zero =>
    intro first _
    simp [printLoop]
  | succ n ih =>
    intro first h
    have hf : first < v.items_.length := by omega
    rw [List.drop_eq_getElem_cons hf, List.take_succ_cons]
    simp only [printLoop, ArrayPtr.load_eq v.items_ first hf, ih (first + 1) (by omega)]
    rfl

/-- Lemma: `PrintSimpleVector` writes the live elements of its argument, in index order. -/
theorem PrintSimpleVector_stored (f : Nat → Int) (v : SimpleVector Int)
    (hs : SimpleVector.Stored v) : PrintSimpleVector (some f) v = .ok v.contents := by
  obtain ⟨c, hc, hsz, _, hlen, hcont⟩ := SimpleVector.copyCtor_stored f v hs
  have h := printLoop_spec c c.size_ 0 (by omega)
  simp only [PrintSimpleVector, hc, SimpleVector.begin_, SimpleVector.end_, Nat.sub_zero, h,
    List.drop_zero]
  rw [← hcont]
  rfl

theorem main_pushes (f : Nat → Int) : pushLoop (some f) 10 0 SimpleVector.ctor
    = .ok ⟨[0, 1, 2, 3, 4, 5, 6, 7, 8, 9, f 10, f 11, f 12, f 13, f 14, f 15], 10, 16⟩ := by
  simp [pushLoop, SimpleVector.PushBack, SimpleVector.ctor, ArrayPtr.create, std_copy, copyLoop,
    ArrayPtr.store, ArrayPtr.load, SimpleVector.begin_, List.range, List.range.loop]

theorem main_insert_begin (f : Nat → Int) (a b c d e g : Int) :
    SimpleVector.Insert (some f) ⟨[0, 1, 2, 3, 4, 5, 6, 7, 8, 9, a, b, c, d, e, g], 10, 16⟩ 0
      (.object 13)
    = (⟨[13, 0, 1, 2, 3, 4, 5, 6, 7, 8, 9, b, c, d, e, g], 11, 16⟩, .ok 0) := by
  rfl

theorem main_insert_end (f : Nat → Int) (b c d e g : Int) :
    SimpleVector.Insert (some f) ⟨[13, 0, 1, 2, 3, 4, 5, 6, 7, 8, 9, b, c, d, e, g], 11, 16⟩ 11
      (.object 14)
    = (⟨[13, 0, 1, 2, 3, 4, 5, 6, 7, 8, 9, 14, c, d, e, g], 12, 16⟩, .ok 11) := by
  rfl

theorem main_insert_offset (f : Nat → Int) (c d e g : Int) :
    SimpleVector.Insert (some f) ⟨[13, 0, 1, 2, 3, 4, 5, 6, 7, 8, 9, 14, c, d, e, g], 12, 16⟩ 3
      (.object 15)
    = (⟨[13, 0, 1, 15, 2, 3, 4, 5, 6, 7, 8, 9, 14, d, e, g], 13, 16⟩, .ok 3) := by
  rfl

theorem main_erase_begin (d e g : Int) :
    SimpleVector.Erase ⟨[13, 0, 1, 15, 2, 3, 4, 5, 6, 7, 8, 9, 14, d, e, g], 13, 16⟩ 0
    = (⟨[0, 1, 15, 2, 3, 4, 5, 6, 7, 8, 9, 14, 14, d, e, g], 12, 16⟩, .ok 0) := by
  rfl

theorem main_increment (d e g : Int) :
    incrementLoop 12 0 ⟨[0, 1, 15, 2, 3, 4, 5, 6, 7, 8, 9, 14, 14, d, e, g], 12, 16⟩
    = .ok ⟨[1, 2, 16, 3, 4, 5, 6, 7, 8, 9, 10, 15, 14, d, e, g], 12, 16⟩ := by
  simp [incrementLoop, SimpleVector.subscript, SimpleVector.subscriptAssign, ArrayPtr.store,
    ArrayPtr.load]

/-- The run of `main`, the storage requests granted: the four lines written, and
`example_vector` at the end. -/
theorem main_run (f : Nat → Int) : main (some f) = .ok
    ([[0, 1, 2, 3, 4, 5, 6, 7, 8, 9],
      [13, 0, 1, 15, 2, 3, 4, 5, 6, 7, 8, 9, 14],
      [0, 1, 15, 2, 3, 4, 5, 6, 7, 8, 9, 14],
      [1, 2, 16, 3, 4, 5, 6, 7, 8, 9, 10, 15]],
     ⟨[1, 2, 16, 3, 4, 5, 6, 7, 8, 9, 10, 15, 14, f 13, f 14, f 15], 12, 16⟩) := by
  have p1 := PrintSimpleVector_stored f
    ⟨[0, 1, 2, 3, 4, 5, 6, 7, 8, 9, f 10, f 11, f 12, f 13, f 14, f 15], 10, 16⟩
    (by simp [SimpleVector.Stored])
  have p2 := PrintSimpleVector_stored f
    ⟨[13, 0, 1, 15, 2, 3, 4, 5, 6, 7, 8, 9, 14, f 13, f 14, f 15], 13, 16⟩
    (by simp [SimpleVector.Stored])
  have p3 := PrintSimpleVector_stored f
    ⟨[0, 1, 15, 2, 3, 4, 5, 6, 7, 8, 9, 14, 14, f 13, f 14, f 15], 12, 16⟩
    (by simp [SimpleVector.Stored])
  have p4 := PrintSimpleVector_stored f
    ⟨[1, 2, 16, 3, 4, 5, 6, 7, 8, 9, 10, 15, 14, f 13, f 14, f 15], 12, 16⟩
    (by simp [SimpleVector.Stored])
  simp only [SimpleVector.contents, List.take] at p1 p2 p3 p4
  simp only [main, Nat.sub_zero, main_pushes, bind, Except.bind, SimpleVector.begin_,
    SimpleVector.end_, SimpleVector.GetSize, p1, main_insert_begin, main_insert_end,
    Nat.zero_add, main_insert_offset, p2, main_erase_begin, p3, main_increment, p4, pure,
    Except.pure]

/-! ## Reading elements, and runs of `PushBack` -/

namespace SimpleVector

variable {α : Type}

/-- Indexing reads the live elements: `v[i]` is entry `i` of `contents`, and undefined when
there is none. -/
theorem subscript_eq (v : SimpleVector α) (i : Nat) :
    subscript v i = (match v.contents[i]? with
      | some x => .ok x
      | none => .error .Undefined) := by
  rw [contents_getElem?]
  unfold subscript ArrayPtr.load
  by_cases h : i < v.size_
  · rw [if_pos h, if_pos h]
    cases v.items_[i]? <;> rfl
  · rw [if_neg h, if_neg h]

theorem subscript_of_contents (v : SimpleVector α) (i : Nat) (x : α)
    (h : v.contents[i]? = some x) : subscript v i = .ok x := by
  rw [subscript_eq, h]

/-- A run of `PushBack` calls on a backed object, the storage requests granted: every call
returns, and the live elements are the old ones followed by the pushed values in order. -/
theorem pushBackAll_backed (f : Nat → α) (xs : List α) :
    ∀ v : SimpleVector α, Backed v →
      ∃ v1, pushBackAll (some f) v xs = .ok v1 ∧ Backed v1 ∧
        v1.size_ = v.size_ + xs.length ∧ v1.contents = v.contents ++ xs := by
  induction xs with
  | nil =>
    intro v hb
    exact ⟨v, rfl, hb, rfl, by simp⟩
  | cons x xs ih =>
    intro v hb
    obtain ⟨v1, h1, hsz1, hc1, hb1, _⟩ := PushBack_backed f v x hb
    obtain ⟨v2, h2, hb2, hsz2, hc2⟩ := ih v1 hb1
    refine ⟨v2, ?_, hb2, ?_, ?_⟩
    · simp only [pushBackAll, h1, h2]
    · rw [hsz2, hsz1, List.length_cons]
      omega
    · rw [hc2, hc1, List.append_assoc]
      rfl

/-- Erasing at the position just inserted at gives the list back. -/
theorem take_drop_insert_erase (l : List α) (p : Nat) (x : α) (hp : p ≤ l.length) :
    (l.take p ++ [x] ++ l.drop p).take p ++ (l.take p ++ [x] ++ l.drop p).drop (p + 1) = l := by
  apply List.ext_getElem?
  intro j
  have hlen : p ≤ (l.take p ++ [x] ++ l.drop p).length := by
    simp only [List.length_append, List.length_take, List.length_drop, List.length_singleton]
    omega
  rw [getElem?_erase_at _ _ hlen]
  by_cases h1 : j < p
  · rw [if_pos h1, getElem?_insert_at _ _ _ hp, if_pos h1]
  · have h2 : ¬ j + 1 < p := by omega
    have h3 : ¬ j + 1 = p := by omega
    rw [if_neg h1, getElem?_insert_at _ _ _ hp, if_neg h2, if_neg h3, Nat.add_sub_cancel]

/-- A `PushBack` that does not grow leaves the capacity as it was, however the call ends. -/
theorem PushBack_capacity_in_place (fresh : Option (Nat → α)) (v : SimpleVector α) (x : α)
    (h : ¬ v.size_ + 1 > v.capacity_) : (PushBack fresh v x).1.capacity_ = v.capacity_ := by
  simp only [PushBack, if_neg h]
  split <;> rfl

/-- An `Insert` that does not grow leaves the capacity as it was, however the call ends. -/
theorem Insert_capacity_in_place (fresh : Option (Nat → α)) (v : SimpleVector α) (pos : Nat)
    (x : ValueRef α) (h : ¬ v.size_ + 1 > v.capacity_) :
    (Insert fresh v pos x).1.capacity_ = v.capacity_ := by
  simp only [Insert, if_neg h]
  split
  · rfl
  · split
    · rfl
    · split
      · rfl
      · split <;> rfl

/-- Lemma: `At` inside the live range of an object whose live elements are stored returns the
element and leaves the object as it was. -/
theorem At_in_range (v : SimpleVector α) (i : Nat) (hs : Stored v) (hi : i < v.size_) :
    ∃ x, At v i = (v, .ok x) ∧ v.contents[i]? = some x := by
  unfold Stored at hs
  have hl : i < v.items_.length := by omega
  refine ⟨v.items_.get ⟨i, hl⟩, ?_, ?_⟩
  · have hn : ¬ i ≥ v.size_ := by omega
    simp only [At, if_neg hn, ArrayPtr.load_eq v.items_ i hl]
  · rw [contents_getElem?, if_pos hi, List.getElem?_eq_getElem hl]
    rfl

/-- Lemma: `At` at or past the size throws `std::out_of_range` and leaves the object as it was. -/
theorem At_out_of_range (v : SimpleVector α) (i : Nat) (hi : v.size_ ≤ i) :
    At v i = (v, .error .IndexOutOfRange) := by
  have hn : i ≥ v.size_ := hi
  simp only [At, if_pos hn]

end SimpleVector

/-! ## Resizing, reserving and constructing -/

namespace SimpleVector

variable {α : Type}

/-- Lemma: `Resize` on a backed object with its counters in order, the storage request
granted: the call returns, the size is the requested one, the live elements below the old
size are the old ones and those from the old size on are the default value, and the capacity
is the requested size when that exceeds it and unchanged otherwise. -/
theorem Resize_backed [Inhabited α] (f : Nat → α) (v : SimpleVector α) (n : Nat)
    (hb : Backed v) (hsc : v.size_ ≤ v.capacity_) :
    ∃ v1, Resize (some f) v n = (v1, .ok ()) ∧ v1.size_ = n ∧
      (∀ j, v1.contents[j]? =
        if j < n then (if j < v.size_ then v.items_[j]? else some default) else none) ∧
      v1.capacity_ = (if n > v.capacity_ then n else v.capacity_) ∧ Backed v1 := by
  obtain ⟨hs, hc⟩ := hb
  by_cases hg : n > v.capacity_
  · -- the reallocating path
    obtain ⟨r1, hr1, hlen1, hget1⟩ := copyLoop_spec v.items_ v.size_ 0
      ((List.range n).map f) 0 (by omega) (by simp; omega)
    have hl1 : r1.length = n := by simpa using hlen1
    obtain ⟨r2, hr2, hlen2, hget2⟩ := fillLoop_spec (default : α) (n - v.size_) v.size_ r1
      (by omega)
    have hl2 : r2.length = n := by omega
    have hle : v.size_ ≤ n := by omega
    refine ⟨⟨r2, n, n⟩, ?_, rfl, fun j => ?_, ?_, ?_⟩
    · simp only [Resize, if_pos hg, ArrayPtr.create_some, std_copy, begin_, end_, Nat.zero_add,
        Nat.zero_le, if_true, Nat.sub_zero, hr1, std_fill, if_pos hle, hr2]
    · rw [contents_getElem?]
      dsimp only
      by_cases h1 : j < n
      · rw [if_pos h1, if_pos h1, hget2 j]
        by_cases h2 : j < v.size_
        · have h3 : ¬ (v.size_ ≤ j ∧ j < v.size_ + (n - v.size_)) := by omega
          have h4 : 0 ≤ j ∧ j < 0 + v.size_ := by omega
          rw [if_neg h3, if_pos h2, hget1 j, if_pos h4, Nat.sub_zero, Nat.zero_add]
        · have h3 : v.size_ ≤ j ∧ j < v.size_ + (n - v.size_) := by omega
          rw [if_pos h3, if_neg h2]
      · rw [if_neg h1, if_neg h1]
    · rw [if_pos hg]
    · exact ⟨by simp only [hl2]; omega, by simp only [hl2]; omega⟩
  · by_cases hge : n ≥ v.size_
    · -- the path that fills in place
      obtain ⟨r1, hr1, hlen1, hget1⟩ := fillLoop_spec (default : α) (n - v.size_) v.size_
        v.items_ (by omega)
      have hle : v.size_ ≤ n := hge
      refine ⟨⟨r1, n, v.capacity_⟩, ?_, rfl, fun j => ?_, ?_, ?_⟩
      · simp only [Resize, if_neg hg, if_pos hge, std_fill, begin_, end_, Nat.zero_add,
          if_pos hle, hr1]
      · rw [contents_getElem?]
        dsimp only
        by_cases h1 : j < n
        · rw [if_pos h1, if_pos h1, hget1 j]
          by_cases h2 : j < v.size_
          · have h3 : ¬ (v.size_ ≤ j ∧ j < v.size_ + (n - v.size_)) := by omega
            rw [if_neg h3, if_pos h2]
          · have h3 : v.size_ ≤ j ∧ j < v.size_ + (n - v.size_) := by omega
            rw [if_pos h3, if_neg h2]
        · rw [if_neg h1, if_neg h1]
      · rw [if_neg hg]
      · exact ⟨by simp only [hlen1]; omega, by simp only [hlen1]; omega⟩
    · -- the shrinking path
      refine ⟨⟨v.items_, n, v.capacity_⟩, ?_, rfl, fun j => ?_, ?_, ?_⟩
      · simp only [Resize, if_neg hg, if_neg hge]
      · rw [contents_getElem?]
        dsimp only
        by_cases h1 : j < n
        · have h2 : j < v.size_ := by omega
          rw [if_pos h1, if_pos h1, if_pos h2]
        · rw [if_neg h1, if_neg h1]
      · rw [if_neg hg]
      · exact ⟨by dsimp only; omega, hc⟩

/-- Lemma: `Reserve` on a sound object, the storage request granted: the call returns, the
capacity is the larger of the old one and the requested one, the block has at least that
many slots when it had before, and size and live elements are unchanged. -/
theorem Reserve_spec (f : Nat → α) (v : SimpleVector α) (t : Nat) (h : Sound v) :
    ∃ v1, Reserve (some f) v t = (v1, .ok ()) ∧ v1.size_ = v.size_ ∧
      v1.contents = v.contents ∧ v1.capacity_ = max v.capacity_ t ∧
      (t > v.capacity_ → v1.items_.length = t) ∧ (¬ t > v.capacity_ → v1 = v) := by
  obtain ⟨hs, hc⟩ := h
  by_cases hg : t > v.capacity_
  · obtain ⟨r1, hr1, hlen1, hget1⟩ := copyLoop_spec v.items_ v.size_ 0
      ((List.range t).map f) 0 (by omega) (by simp; omega)
    have hl1 : r1.length = t := by simpa using hlen1
    refine ⟨⟨r1, v.size_, t⟩, ?_, rfl, ?_, ?_, fun _ => hl1, fun h => absurd hg h⟩
    · simp only [Reserve, if_pos hg, ArrayPtr.create_some, std_copy, begin_, Nat.zero_add,
        Nat.zero_le, if_true, Nat.sub_zero, hr1]
    · apply List.ext_getElem?
      intro j
      rw [contents_getElem?, contents_getElem?]
      dsimp only
      by_cases h1 : j < v.size_
      · have h2 : 0 ≤ j ∧ j < 0 + v.size_ := by omega
        rw [if_pos h1, if_pos h1, hget1 j, if_pos h2, Nat.sub_zero, Nat.zero_add]
      · rw [if_neg h1, if_neg h1]
    · dsimp only
      omega
  · refine ⟨v, ?_, rfl, rfl, ?_, fun h => absurd h hg, fun _ => rfl⟩
    · simp only [Reserve, if_neg hg]
    · omega

/-- Lemma: the constructor from a count and a value, the storage request granted, makes an
object of that size and capacity, over a block of that many slots, each holding the
value. -/
theorem ctorSizeValue_spec (f : Nat → α) (n : Nat) (x : α) :
    ∃ v, ctorSizeValue (some f) n x = .ok v ∧ v.size_ = n ∧ v.capacity_ = n ∧
      v.items_.length = n ∧ v.contents = List.replicate n x := by
  obtain ⟨r1, hr1, hlen1, hget1⟩ := fillLoop_spec x n 0 ((List.range n).map f) (by simp)
  have hl1 : r1.length = n := by simpa using hlen1
  refine ⟨⟨r1, n, n⟩, ?_, rfl, rfl, hl1, ?_⟩
  · simp only [ctorSizeValue, ArrayPtr.create_some, std_fill, begin_, end_, Nat.zero_le,
      if_true, Nat.sub_zero, hr1]
  · apply List.ext_getElem?
    intro j
    rw [contents_getElem?, List.getElem?_replicate]
    dsimp only
    by_cases h1 : j < n
    · have h2 : 0 ≤ j ∧ j < 0 + n := by omega
      rw [if_pos h1, if_pos h1, hget1 j, if_pos h2]
    · rw [if_neg h1, if_neg h1]

/-- Lemma: the constructor from a literal list, the storage request granted, makes an object
whose size and capacity are the length of the list, over a block of that many slots, holding
the entries of the list in order. -/
theorem ctorInit_spec (f : Nat → α) (init : List α) :
    ∃ v, ctorInit (some f) init = .ok v ∧ v.size_ = init.length ∧
      v.capacity_ = init.length ∧ v.items_.length = init.length ∧ v.contents = init := by
  obtain ⟨r1, hr1, hlen1, hget1⟩ := copyLoop_spec init init.length 0
    ((List.range init.length).map f) 0 (by omega) (by simp)
  have hl1 : r1.length = init.length := by simpa using hlen1
  refine ⟨⟨r1, init.length, init.length⟩, ?_, rfl, rfl, hl1, ?_⟩
  · simp only [ctorInit, ArrayPtr.create_some, std_copy, begin_, Nat.zero_le, if_true,
      Nat.sub_zero, hr1]
  · apply List.ext_getElem?
    intro j
    rw [contents_getElem?]
    dsimp only
    by_cases h1 : j < init.length
    · have h2 : 0 ≤ j ∧ j < 0 + init.length := by omega
      rw [if_pos h1, hget1 j, if_pos h2, Nat.sub_zero, Nat.zero_add]
    · rw [if_neg h1, List.getElem?_eq_none (by omega)]

/-- Lemma: the constructor from a reserve request, the storage request granted, makes an
empty object of the requested capacity over a block of that many slots. -/
theorem ctorReserve_spec (f : Nat → α) (c : Nat) :
    ∃ v, ctorReserve (some f) (CppSimpleVector.Reserve c) = .ok v ∧ v.size_ = 0 ∧
      v.capacity_ = c ∧ v.items_.length = c := by
  have hsound : Sound (⟨[], 0, 0⟩ : SimpleVector α) := ⟨Nat.le_refl _, Nat.le_refl _⟩
  obtain ⟨v1, h1, hsz, _, hcap, hlen, hsame⟩ := Reserve_spec f ⟨[], 0, 0⟩ c hsound
  refine ⟨v1, ?_, hsz, ?_, ?_⟩
  · simp only [ctorReserve, CppSimpleVector.Reserve, ReserveProxyObj.GetReserveSize, h1]
  · rw [hcap]
    exact Nat.max_eq_right (Nat.zero_le c)
  · by_cases hc : c > 0
    · exact hlen hc
    · have h0 : c = 0 := by omega
      rw [hsame (by dsimp only; omega), h0]
      rfl

end SimpleVector

/-! ## Comparing for equality, and failing allocations -/

namespace SimpleVector

variable {α : Type}

/-- Two objects whose live elements are stored have the same live elements exactly when they
have the same size and indexing gives the same result at every index below it. -/
theorem contents_eq_iff (a b : SimpleVector α) (ha : Stored a) (hb : Stored b) :
    a.contents = b.contents ↔
      a.size_ = b.size_ ∧ ∀ i, i < a.size_ → subscript a i = subscript b i := by
  constructor
  · intro h
    have hsz : a.size_ = b.size_ := by
      rw [← contents_length a ha, ← contents_length b hb, h]
    exact ⟨hsz, fun i _ => by rw [subscript_eq, subscript_eq b, h]⟩
  · rintro ⟨hsz, hel⟩
    apply List.ext_getElem?
    intro j
    by_cases hj : j < a.size_
    · have h1 := hel j hj
      rw [subscript_eq, subscript_eq b] at h1
      have hja : j < a.contents.length := by rw [contents_length a ha]; exact hj
      have hjb : j < b.contents.length := by rw [contents_length b hb, ← hsz]; exact hj
      rw [List.getElem?_eq_getElem hja, List.getElem?_eq_getElem hjb] at h1 ⊢
      simp only [Except.ok.injEq] at h1
      rw [h1]
    · rw [List.getElem?_eq_none (by rw [contents_length a ha]; omega),
        List.getElem?_eq_none (by rw [contents_length b hb, ← hsz]; omega)]

/-- Lemma: `operator!=` on two objects whose live elements are stored is the negation of
`operator==`. -/
theorem operatorNe_stored [BEq α] (lhs rhs : SimpleVector α) (hl : Stored lhs)
    (hr : Stored rhs) : operatorNe lhs rhs = .ok (!(lhs.contents == rhs.contents)) := by
  simp only [operatorNe, operatorEq_stored lhs rhs hl hr]

theorem ArrayPtr_create_none (n : Nat) (hn : n ≠ 0) :
    ArrayPtr.create (none : Option (Nat → α)) n = .error .OutOfMemory := by
  simp only [ArrayPtr.create, if_neg hn]

/-- Lemma: a `PushBack` that ends in `std::bad_alloc` leaves the object as it was. -/
theorem PushBack_oom (fresh : Option (Nat → α)) (v v1 : SimpleVector α) (x : α)
    (he : PushBack fresh v x = (v1, .error .OutOfMemory)) : v1 = v := by
  by_cases hg : v.size_ + 1 > v.capacity_
  · have hns : (if v.size_ = 0 then 1 else v.size_ + 1) = v.size_ + 1 := by
      split <;> omega
    simp only [PushBack, if_pos hg, hns] at he
    generalize (if v.size_ = 0 then v.size_ + 1 else v.size_ * 2) = new_capacity at he
    split at he
    · exact (Prod.mk.inj he).1.symm
    · split at he
      · simp at he
      · split at he <;> simp at he
  · simp only [PushBack, if_neg hg] at he
    split at he <;> simp at he

/-- Lemma: an `Insert` that ends in `std::bad_alloc` leaves the object as it was. -/
theorem Insert_oom (fresh : Option (Nat → α)) (v v1 : SimpleVector α) (pos : Nat)
    (x : ValueRef α) (he : Insert fresh v pos x = (v1, .error .OutOfMemory)) : v1 = v := by
  by_cases hp : pos ≤ v.size_
  · have hnp : ¬ ¬ pos ≤ v.size_ := not_not.mpr hp
    by_cases hg : v.size_ + 1 > v.capacity_
    · have hns : (if v.size_ = 0 then 1 else v.size_ + 1) = v.size_ + 1 := by
        split <;> omega
      simp only [Insert, begin_, Nat.sub_zero, if_neg hnp, if_pos hg, hns] at he
      generalize (if v.size_ = 0 then v.size_ + 1 else v.size_ * 2) = new_capacity at he
      split at he
      · exact (Prod.mk.inj he).1.symm
      · split at he
        · simp at he
        · split at he
          · simp at he
          · split at he
            · simp at he
            · split at he <;> simp at he
    · simp only [Insert, begin_, Nat.sub_zero, if_neg hnp, if_neg hg] at he
      split at he
      · simp at he
      · split at he
        · simp at he
        · split at he <;> simp at he
  · simp only [Insert, begin_, Nat.sub_zero, if_pos hp] at he
    simp at he

/-- Lemma: a `Reserve` that ends in `std::bad_alloc` leaves the object as it was. -/
theorem Reserve_oom (fresh : Option (Nat → α)) (v v1 : SimpleVector α) (t : Nat)
    (he : Reserve fresh v t = (v1, .error .OutOfMemory)) : v1 = v := by
  unfold Reserve at he
  split at he
  · split at he
    · exact (Prod.mk.inj he).1.symm
    · dsimp only at he
      split at he <;> simp at he
  · simp at he

/-- Lemma: a `Resize` that ends in `std::bad_alloc` leaves the object as it was. -/
theorem Resize_oom [Inhabited α] (fresh : Option (Nat → α)) (v v1 : SimpleVector α) (n : Nat)
    (he : Resize fresh v n = (v1, .error .OutOfMemory)) : v1 = v := by
  unfold Resize at he
  split at he
  · split at he
    · exact (Prod.mk.inj he).1.symm
    · dsimp only at he
      split at he
      · simp at he
      · split at he <;> simp at he
  · split at he
    · dsimp only at he
      split at he <;> simp at he
    · simp at he

/-- Lemma: a `PushBack` that has to grow, the storage request refused, ends in
`std::bad_alloc`. -/
theorem PushBack_refused (v : SimpleVector α) (x : α) (hg : v.size_ + 1 > v.capacity_) :
    PushBack none v x = (v, .error .OutOfMemory) := by
  have hne : (if v.size_ = 0 then (if v.size_ = 0 then 1 else v.size_ + 1) else v.size_ * 2)
      ≠ 0 := by
    split <;> omega
  simp only [PushBack, if_pos hg, ArrayPtr_create_none _ hne]

/-- Lemma: an `Insert` at a valid position that has to grow, the storage request refused,
ends in `std::bad_alloc`. -/
theorem Insert_refused (v : SimpleVector α) (pos : Nat) (x : ValueRef α) (hp : pos ≤ v.size_)
    (hg : v.size_ + 1 > v.capacity_) : Insert none v pos x = (v, .error .OutOfMemory) := by
  have hnp : ¬ ¬ pos ≤ v.size_ := not_not.mpr hp
  have hne : (if v.size_ = 0 then (if v.size_ = 0 then 1 else v.size_ + 1) else v.size_ * 2)
      ≠ 0 := by
    split <;> omega
  simp only [Insert, begin_, Nat.sub_zero, if_neg hnp, if_pos hg, ArrayPtr_create_none _ hne]

/-- Lemma: a `Reserve` beyond the capacity, the storage request refused, ends in
`std::bad_alloc`. -/
theorem Reserve_refused (v : SimpleVector α) (t : Nat) (hg : t > v.capacity_) :
    Reserve none v t = (v, .error .OutOfMemory) := by
  have hne : t ≠ 0 := by omega
  simp only [Reserve, if_pos hg, ArrayPtr_create_none _ hne]

/-- Lemma: a `Resize` beyond the capacity, the storage request refused, ends in
`std::bad_alloc`. -/
theorem Resize_refused [Inhabited α] (v : SimpleVector α) (n : Nat) (hg : n > v.capacity_) :
    Resize none v n = (v, .error .OutOfMemory) := by
  have hne : n ≠ 0 := by omega
  simp only [Resize, if_pos hg, ArrayPtr_create_none _ hne]

end SimpleVector

/-! ## Capacity along a run of `PushBack` calls -/

namespace SimpleVector

variable {α : Type}

/-- A run of `PushBack` calls on a non-empty backed object whose capacity is the least power
of two that holds its size keeps the capacity so, and asks for new storage once per
doubling. -/
theorem pushBackAll_pow2 (f : Nat → α) (xs : List α) :
    ∀ (v : SimpleVector α) (e : Nat), Backed v → 1 ≤ v.size_ → v.capacity_ = 2 ^ e →
      v.size_ ≤ 2 ^ e → (e = 0 ∨ 2 ^ (e - 1) < v.size_) →
      ∃ v1 e1, pushBackAll (some f) v xs = .ok v1 ∧ v1.size_ = v.size_ + xs.length ∧
        v1.capacity_ = 2 ^ e1 ∧ v1.size_ ≤ 2 ^ e1 ∧ (e1 = 0 ∨ 2 ^ (e1 - 1) < v1.size_) ∧
        pushBackGrowths (some f) v xs + e = e1 := by
  induction xs with
  | nil =>
    intro v e _ _ hcap hle hlow
    exact ⟨v, e, rfl, rfl, hcap, hle, hlow, by simp [pushBackGrowths]⟩
  | cons x xs ih =>
    intro v e hb hpos hcap hle hlow
    obtain ⟨v1, h1, hsz1, _, hb1, hcap1⟩ := PushBack_backed f v x hb
    by_cases hg : v.size_ + 1 > v.capacity_
    · -- the call doubles the capacity
      have hfull : v.size_ = 2 ^ e := by omega
      have hne : ¬ v.size_ = 0 := by omega
      rw [if_pos hg, if_neg hne] at hcap1
      have hc1 : v1.capacity_ = 2 ^ (e + 1) := by
        rw [hcap1, hfull, pow_succ]
      have hpow : 2 ^ (e + 1) = 2 ^ e * 2 := pow_succ 2 e
      obtain ⟨v2, e2, h2, hsz2, hcap2, hle2, hlow2, hcnt⟩ := ih v1 (e + 1) hb1 (by omega) hc1
        (by omega) (Or.inr (by rw [Nat.add_sub_cancel]; omega))
      refine ⟨v2, e2, ?_, ?_, hcap2, hle2, hlow2, ?_⟩
      · simp only [pushBackAll, h1, h2]
      · rw [hsz2, hsz1, List.length_cons]
        omega
      · simp only [pushBackGrowths, h1, if_pos hg]
        omega
    · -- the call keeps the capacity
      rw [if_neg hg] at hcap1
      have hc1 : v1.capacity_ = 2 ^ e := by rw [hcap1, hcap]
      have hlow1 : e = 0 ∨ 2 ^ (e - 1) < v1.size_ := by
        rcases hlow with h0 | h0
        · exact Or.inl h0
        · exact Or.inr (by omega)
      obtain ⟨v2, e2, h2, hsz2, hcap2, hle2, hlow2, hcnt⟩ := ih v1 e hb1 (by omega) hc1
        (by omega) hlow1
      refine ⟨v2, e2, ?_, ?_, hcap2, hle2, hlow2, ?_⟩
      · simp only [pushBackAll, h1, h2]
      · rw [hsz2, hsz1, List.length_cons]
        omega
      · simp only [pushBackGrowths, h1, if_neg hg]
        omega

/-- A run of at least one `PushBack` call on the default-constructed object ends with the
capacity `2 ^ e` for the `e` with `2 ^ (e - 1) < n ≤ 2 ^ e`, after `e + 1` requests for new
storage. -/
theorem pushBackAll_ctor_pow2 (f : Nat → α) (x : α) (xs : List α) :
    ∃ v1 e1, pushBackAll (some f) ctor (x :: xs) = .ok v1 ∧ v1.size_ = xs.length + 1 ∧
      v1.capacity_ = 2 ^ e1 ∧ v1.size_ ≤ 2 ^ e1 ∧ (e1 = 0 ∨ 2 ^ (e1 - 1) < v1.size_) ∧
      pushBackGrowths (some f) ctor (x :: xs) = e1 + 1 := by
  have hb0 : Backed (ctor : SimpleVector α) := ⟨Nat.le_refl _, Nat.le_refl _⟩
  obtain ⟨v1, h1, hsz1, _, hb1, hcap1⟩ := PushBack_backed f ctor x hb0
  have hg : (ctor : SimpleVector α).size_ + 1 > (ctor : SimpleVector α).capacity_ :=
    Nat.zero_lt_one
  have hz : (ctor : SimpleVector α).size_ = 0 := rfl
  rw [if_pos hg, if_pos hz] at hcap1
  rw [hz] at hsz1
  obtain ⟨v2, e2, h2, hsz2, hcap2, hle2, hlow2, hcnt⟩ := pushBackAll_pow2 f xs v1 0 hb1
    (by omega) (by rw [hcap1]; rfl) (by rw [hsz1]; exact Nat.le_refl _) (Or.inl rfl)
  refine ⟨v2, e2, ?_, ?_, hcap2, hle2, hlow2, ?_⟩
  · simp only [pushBackAll, h1, h2]
  · rw [hsz2, hsz1]
    omega
  · simp only [pushBackGrowths, h1, if_pos hg]
    omega

end SimpleVector

/-! ## Comparing for order -/

/-- The slots of a block from `first` up to `last`, when there is at least one, start with
the slot at `first`. -/
theorem take_drop_cons {α : Type} (b : ArrayPtr α) (first last : Nat) (h1 : first < last)
    (h2 : last ≤ b.length) :
    (b.drop first).take (last - first)
      = b.get ⟨first, by omega⟩ :: (b.drop (first + 1)).take (last - (first + 1)) := by
  have hf : first < b.length := by omega
  have hsub : last - first = (last - (first + 1)) + 1 := by omega
  rw [List.drop_eq_getElem_cons hf, hsub, List.take_succ_cons]
  rfl

/-- A list whose head is above the head of another is not below it in the lexicographic
order. -/
theorem not_lex_cons_of_gt {α : Type} [LinearOrder α] (x y : α) (l₁ l₂ : List α)
    (hyx : y < x) : ¬ List.Lex (fun x y => x < y) (x :: l₁) (y :: l₂) := by
  intro h
  cases h with
  | cons h1 => exact lt_irrefl _ hyx
  | rel h1 => exact lt_asymm hyx h1

/-- Lemma: `std::lexicographical_compare` over ranges inside their blocks, for elements in a
linear order, returns whether the first range is below the second in the lexicographic order
of lists. -/
theorem lexLoop_spec {α : Type} [LinearOrder α] (a b : ArrayPtr α) (last2 : Nat)
    (hl2 : last2 ≤ b.length) (n : Nat) :
    ∀ (first1 first2 : Nat), first1 + n ≤ a.length → first2 ≤ last2 →
      ∃ r, lexLoop a b last2 n first1 first2 = some r ∧
        (r = true ↔ List.Lex (fun x y => x < y) ((a.drop first1).take n)
          ((b.drop first2).take (last2 - first2))) := by
  induction n with
  | zero =>
    intro first1 first2 _ h2
    refine ⟨first2 != last2, rfl, ?_⟩
    rw [List.take_zero]
    by_cases he : first2 = last2
    · subst he
      rw [Nat.sub_self, List.take_zero]
      simp
    · have hlt : first2 < last2 := by omega
      rw [take_drop_cons b first2 last2 hlt hl2]
      simp only [bne_iff_ne, ne_eq, he, not_false_eq_true, true_iff]
      exact List.Lex.nil
  | succ n ih =>
    intro first1 first2 h1 h2
    have hf1 : first1 < a.length := by omega
    rw [List.drop_eq_getElem_cons hf1, List.take_succ_cons]
    by_cases he : first2 = last2
    · subst he
      refine ⟨false, ?_, ?_⟩
      · simp only [lexLoop, if_true]
      · rw [Nat.sub_self, List.take_zero]
        simp
    · have hlt : first2 < last2 := by omega
      have hf2 : first2 < b.length := by omega
      rw [take_drop_cons b first2 last2 hlt hl2]
      simp only [lexLoop, if_neg he, ArrayPtr.load_eq a first1 hf1,
        ArrayPtr.load_eq b first2 hf2]
      by_cases hxy : a.get ⟨first1, hf1⟩ < b.get ⟨first2, hf2⟩
      · refine ⟨true, by rw [if_pos hxy], ?_⟩
        simp only [true_iff]
        exact List.Lex.rel hxy
      · by_cases hyx : b.get ⟨first2, hf2⟩ < a.get ⟨first1, hf1⟩
        · refine ⟨false, by rw [if_neg hxy, if_pos hyx], ?_⟩
          constructor
          · intro h
            exact Bool.noConfusion h
          · intro h
            exact absurd h (not_lex_cons_of_gt _ _ _ _ hyx)
        · have hxe : a.get ⟨first1, hf1⟩ = b.get ⟨first2, hf2⟩ :=
            le_antisymm (not_lt.mp hyx) (not_lt.mp hxy)
          obtain ⟨r, hr, hiff⟩ := ih (first1 + 1) (first2 + 1) (by omega) (by omega)
          refine ⟨r, by rw [if_neg hxy, if_neg hyx, hr], ?_⟩
          rw [hiff]
          show _ ↔ List.Lex _ (a.get ⟨first1, hf1⟩ :: _) (b.get ⟨first2, hf2⟩ :: _)
          rw [hxe, List.Lex.cons_iff]

namespace SimpleVector

variable {α : Type}

/-- Lemma: `operator<` on two objects whose live elements are stored, the elements in a
linear order, returns whether the live elements of the first are below those of the second
in the lexicographic order of lists. -/
theorem operatorLt_stored [LinearOrder α] (lhs rhs : SimpleVector α) (hl : Stored lhs)
    (hr : Stored rhs) :
    ∃ r, operatorLt lhs rhs = .ok r ∧
      (r = true ↔ List.Lex (fun x y => x < y) lhs.contents rhs.contents) := by
  unfold Stored at hl hr
  obtain ⟨r, h1, hiff⟩ := lexLoop_spec lhs.items_ rhs.items_ rhs.size_ hr lhs.size_ 0 0
    (by omega) (Nat.zero_le _)
  refine ⟨r, ?_, ?_⟩
  · simp only [operatorLt, std_lexicographical_compare, begin_, end_, Nat.zero_le, and_self,
      if_true, Nat.sub_zero, h1]
  · rw [hiff, List.drop_zero, List.drop_zero, Nat.sub_zero]
    rfl

/-- A list is below each of its proper extensions in the lexicographic order. -/
theorem lex_append_of_ne_nil [LinearOrder α] (l t : List α) (ht : t ≠ []) :
    List.Lex (fun x y => x < y) l (l ++ t) := by
  induction l with
  | nil =>
    cases t with
    | nil => exact absurd rfl ht
    | cons y t => exact List.Lex.nil
  | cons x l ih => exact List.Lex.cons ih

end SimpleVector

/-! ## The claims -/

open SimpleVector

/-- C1, as stated, fails: the run of the driver (ten pushes of 0..9, `Insert` of 13 at
`begin()`, of 14 at `end()`, of 15 at `begin() + 3`, `Erase` at `begin()`, one added to every
element) does not leave `example_vector` with size 12 and contents
`[1,2,3,16,4,5,6,7,8,9,10,15]`. -/
theorem C1_claimed_contents_refuted :
    mainResult (main (some fun _ => 0)) ≠ some (12, [1, 2, 3, 16, 4, 5, 6, 7, 8, 9, 10, 15]) := by
  decide

/-- C1, amended: whatever the fresh blocks hold, the run of the driver leaves
`example_vector` with size 12 and contents `[1,2,16,3,4,5,6,7,8,9,10,15]`: the 15 inserted
at offset 3 sits at index 2 after the erase at `begin()`. -/
theorem C1_main_final_contents (f : Nat → Int) :
    mainResult (main (some f)) = some (12, [1, 2, 16, 3, 4, 5, 6, 7, 8, 9, 10, 15]) := by
  rw [main_run]
  rfl

/-- C2 at the failing input: the array made by three pushes has size 3 and capacity 4; its
copy, by the copy constructor and by copy assignment alike, reports capacity 4, not 3, while
the block it owns has 3 slots. -/
theorem C2_copy_keeps_source_capacity :
    ∃ a b c : SimpleVector Int,
      pushBackAll (some fun _ => 0) ctor [0, 1, 2] = .ok a ∧
      a.GetSize = 3 ∧ a.GetCapacity = 4 ∧
      copyCtor (some fun _ => 0) a = .ok b ∧
      b.GetCapacity = 4 ∧ b.GetCapacity ≠ a.GetSize ∧ b.items_.length = 3 ∧
      copyAssign (some fun _ => 0) ctor a = (c, .ok ()) ∧
      c.GetCapacity = 4 ∧ c.GetCapacity ≠ a.GetSize ∧ c.items_.length = 3 :=
  ⟨⟨[0, 1, 2, 0], 3, 4⟩, ⟨[0, 1, 2], 3, 4⟩, ⟨[0, 1, 2], 3, 4⟩,
    rfl, rfl, rfl, rfl, rfl, by decide, rfl, rfl, rfl, by decide, rfl⟩

/-- C3 at the failing input: the array `a` made by three pushes (size 3, capacity 4) takes
`PushBack(9)` and holds `[0,1,2,9]`; its copy `b`, a reachable array with the same contents
`[0,1,2]`, owns 3 slots under capacity 4, so `b.PushBack(9)` takes the non-growing path and
writes offset 3, outside the block: the call does not leave `[0,1,2,9]`. -/
theorem C3_PushBack_on_copy_overruns :
    ∃ a a1 b : SimpleVector Int,
      pushBackAll (some fun _ => 0) ctor [0, 1, 2] = .ok a ∧
      PushBack (some fun _ => 0) a 9 = (a1, .ok ()) ∧ a1.contents = [0, 1, 2, 9] ∧
      copyCtor (some fun _ => 0) a = .ok b ∧ Reachable b ∧
      b.contents = [0, 1, 2] ∧ b.GetSize + 1 ≤ b.GetCapacity ∧ b.items_.length = 3 ∧
      PushBack (some fun _ => 0) b 9 = (b, .error .Undefined) := by
  have r0 : Reachable (ctor : SimpleVector Int) := Reachable.ctor
  have r1 : Reachable (⟨[0], 1, 1⟩ : SimpleVector Int) :=
    Reachable.PushBack (some fun _ => 0) ctor _ 0 (.ok ()) r0 rfl (fun h => Except.noConfusion h)
  have r2 : Reachable (⟨[0, 1], 2, 2⟩ : SimpleVector Int) :=
    Reachable.PushBack (some fun _ => 0) _ _ 1 (.ok ()) r1 rfl (fun h => Except.noConfusion h)
  have r3 : Reachable (⟨[0, 1, 2, 0], 3, 4⟩ : SimpleVector Int) :=
    Reachable.PushBack (some fun _ => 0) _ _ 2 (.ok ()) r2 rfl (fun h => Except.noConfusion h)
  have r4 : Reachable (⟨[0, 1, 2], 3, 4⟩ : SimpleVector Int) :=
    Reachable.copyCtor (some fun _ => 0) _ _ r3 rfl
  exact ⟨⟨[0, 1, 2, 0], 3, 4⟩, ⟨[0, 1, 2, 9], 4, 4⟩, ⟨[0, 1, 2], 3, 4⟩, rfl, rfl, rfl, rfl, r4,
    rfl, by decide, rfl, rfl⟩

/-- C4 at the failing inputs.  The array `v` made by pushing 1, 2, 3 (size 3, capacity 4)
has `v[2] = 3`; `v.Insert(v.begin(), v[2])` takes the in-place path, shifts the block to
`[1,1,2,3]` and only then reads the parameter, which refers to slot 2 and now gives 2: the
contents become `[2,1,2,3]`, not `[3,1,2,3]`.  The reallocating path, on the full array
`[1,2,3]`, reads the parameter from the old block and gives `[3,1,2,3]`.  And on the copy of
`v`, which owns 3 slots under capacity 4, `Insert` of an outside value writes outside the
block. -/
theorem C4_Insert_of_own_element_misplaces :
    ∃ v v1 w1 b : SimpleVector Int,
      pushBackAll (some fun _ => 0) ctor [1, 2, 3] = .ok v ∧
      v.GetSize = 3 ∧ v.GetCapacity = 4 ∧ subscript v 2 = .ok 3 ∧
      Insert (some fun _ => 0) v 0 (.slot 2) = (v1, .ok 0) ∧
      v1.contents = [2, 1, 2, 3] ∧ subscript v1 0 = .ok 2 ∧
      v1.contents ≠ v.contents.take 0 ++ [3] ++ v.contents.drop 0 ∧
      Insert (some fun _ => 0) (⟨[1, 2, 3], 3, 3⟩ : SimpleVector Int) 0 (.slot 2) = (w1, .ok 0) ∧
      w1.contents = [3, 1, 2, 3] ∧
      copyCtor (some fun _ => 0) v = .ok b ∧
      (Insert (some fun _ => 0) b 0 (.object 9)).2 = .error .Undefined :=
  ⟨⟨[1, 2, 3, 0], 3, 4⟩, ⟨[2, 1, 2, 3], 4, 4⟩, ⟨[3, 1, 2, 3, 0, 0], 4, 6⟩, ⟨[1, 2, 3], 3, 4⟩,
    rfl, rfl, rfl, rfl, rfl, rfl, rfl, by decide, rfl, rfl, rfl, rfl⟩

/-- C5: on every array whose live elements are stored, for every position `p < size`,
`Erase(p)` returns, decreases the size by one, leaves every element before `p` unchanged, and
moves every element from index `i > p` to index `i - 1`: the contents become
`xs[0..p) ++ xs[p+1..size)`; the capacity is unchanged. -/
theorem C5_Erase_shifts_left {α : Type} (v : SimpleVector α) (p : Nat) (hs : Stored v)
    (hp : p < v.GetSize) :
    ∃ v1 r, Erase v p = (v1, .ok r) ∧
      v1.GetSize = v.GetSize - 1 ∧ v1.GetSize + 1 = v.GetSize ∧
      v1.contents = v.contents.take p ++ v.contents.drop (p + 1) ∧
      (∀ i, i < p → subscript v1 i = subscript v i) ∧
      (∀ i, p < i → i < v.GetSize → subscript v1 (i - 1) = subscript v i) ∧
      v1.GetCapacity = v.GetCapacity := by
  obtain ⟨v1, h1, hsz, hc, hcap, _⟩ := Erase_stored v p hs hp
  have hlen := contents_length v hs
  have hpl : p ≤ v.contents.length := by rw [hlen]; exact Nat.le_of_lt hp
  refine ⟨v1, p, h1, hsz, ?_, hc, fun i hi => ?_, fun i hpi hi => ?_, hcap⟩
  · simp only [GetSize] at hp ⊢
    omega
  · rw [subscript_eq, subscript_eq v, hc, getElem?_erase_at _ _ hpl, if_pos hi]
  · have h1 : ¬ i - 1 < p := by omega
    have h2 : i - 1 + 1 = i := by omega
    rw [subscript_eq, subscript_eq v, hc, getElem?_erase_at _ _ hpl, if_neg h1, h2]

/-- C5 at the array `[1,2,3]` with a spare slot, erasing at index 1. -/
theorem C5_Erase_shifts_left_witness :
    Stored (⟨[1, 2, 3, 0], 3, 4⟩ : SimpleVector Int) ∧ 1 < 3 ∧
      ∃ v1 r, Erase (⟨[1, 2, 3, 0], 3, 4⟩ : SimpleVector Int) 1 = (v1, .ok r) ∧
        v1.contents = [1, 3] ∧ v1.GetCapacity = 4 := by
  refine ⟨by decide, by decide, ?_⟩
  obtain ⟨v1, r, h1, _, _, hc, _, _, hcap⟩ :=
    C5_Erase_shifts_left (⟨[1, 2, 3, 0], 3, 4⟩ : SimpleVector Int) 1 (by decide) (by decide)
  exact ⟨v1, r, h1, hc, hcap⟩

/-- C6 at the failing input: on the array `a` made by three pushes (size 3, capacity 4),
inserting 9 at position 1 and erasing at the returned position gives an array equal to `a`;
on the copy `b` of `a`, which compares equal to `a` and owns 3 slots under capacity 4, the
insert takes the in-place path and shifts the last element to offset 3, outside the block,
so no array equal to the original comes back. -/
theorem C6_round_trip_on_copy_overruns :
    ∃ a a1 a2 b : SimpleVector Int,
      pushBackAll (some fun _ => 0) ctor [0, 1, 2] = .ok a ∧
      Insert (some fun _ => 0) a 1 (.object 9) = (a1, .ok 1) ∧ Erase a1 1 = (a2, .ok 1) ∧
      operatorEq a2 a = .ok true ∧
      copyCtor (some fun _ => 0) a = .ok b ∧ operatorEq b a = .ok true ∧
      b.GetSize = 3 ∧ b.GetCapacity = 4 ∧ b.items_.length = 3 ∧
      (Insert (some fun _ => 0) b 1 (.object 9)).2 = .error .Undefined :=
  ⟨⟨[0, 1, 2, 0], 3, 4⟩, ⟨[0, 9, 1, 2], 4, 4⟩, ⟨[0, 1, 2, 2], 3, 4⟩, ⟨[0, 1, 2], 3, 4⟩,
    rfl, rfl, rfl, rfl, rfl, rfl, rfl, rfl, rfl, rfl⟩

/-- C7: for every reachable array, a `PushBack` or `Insert` called when
`size + 1 > capacity` (storage request granted) returns and sets the capacity to 1 when it
was 0 and to twice the previous capacity otherwise; a `PushBack` or `Insert` called with
`size < capacity` leaves the capacity unchanged.  For `Insert` this holds whatever its value
parameter refers to, an outside object or a live element of the array. -/
theorem C7_growth_policy {α : Type} [Inhabited α] (f : Nat → α) (fresh : Option (Nat → α))
    (v : SimpleVector α) (x : α) (p : Nat) (hr : Reachable v) (hp : p ≤ v.GetSize) :
    (v.GetSize + 1 > v.GetCapacity →
      (∃ v1, PushBack (some f) v x = (v1, .ok ()) ∧
        v1.GetCapacity = (if v.GetCapacity = 0 then 1 else 2 * v.GetCapacity)) ∧
      (∃ v1, Insert (some f) v p (.object x) = (v1, .ok p) ∧
        v1.GetCapacity = (if v.GetCapacity = 0 then 1 else 2 * v.GetCapacity)) ∧
      (∀ value, RefersToLive value v → ∃ v1, Insert (some f) v p value = (v1, .ok p) ∧
        v1.GetCapacity = (if v.GetCapacity = 0 then 1 else 2 * v.GetCapacity))) ∧
    (v.GetSize < v.GetCapacity →
      (PushBack fresh v x).1.GetCapacity = v.GetCapacity ∧
      (Insert fresh v p (.object x)).1.GetCapacity = v.GetCapacity ∧
      (∀ value, (Insert fresh v p value).1.GetCapacity = v.GetCapacity)) := by
  obtain ⟨hs, hc⟩ := hr.sound
  simp only [GetSize, GetCapacity] at hp ⊢
  constructor
  · intro hg
    have heq : v.size_ = v.capacity_ := by omega
    have hb : Backed v := ⟨hs, by omega⟩
    have hrule : (if v.size_ + 1 > v.capacity_ then (if v.size_ = 0 then 1 else v.size_ * 2)
        else v.capacity_) = (if v.capacity_ = 0 then 1 else 2 * v.capacity_) := by
      rw [if_pos hg, heq]
      split <;> omega
    obtain ⟨v1, h1, _, _, _, hcap1⟩ := PushBack_backed f v x hb
    obtain ⟨v2, h2, _, _, _, hcap2⟩ := Insert_backed f v p x hb hp
    refine ⟨⟨v1, h1, hcap1.trans hrule⟩, ⟨v2, h2, hcap2.trans hrule⟩, fun value hval => ?_⟩
    obtain ⟨v3, _, h3, _, _, _, hcap3, _⟩ := Insert_live f v p value hb hp hval
    exact ⟨v3, h3, hcap3.trans hrule⟩
  · intro hlt
    have hn : ¬ v.size_ + 1 > v.capacity_ := by omega
    exact ⟨PushBack_capacity_in_place fresh v x hn, Insert_capacity_in_place fresh v p _ hn,
      fun value => Insert_capacity_in_place fresh v p value hn⟩

/-- C7 at the default-constructed array (capacity 0 to 1), at the array after one push
(capacity 1 to 2), and at an array built from `Reserve(2)` (capacity stays 2). -/
theorem C7_growth_policy_witness :
    (Reachable (ctor : SimpleVector Int) ∧
      ∃ v1 : SimpleVector Int, PushBack (some fun _ => 0) ctor 7 = (v1, .ok ()) ∧
        v1.GetCapacity = 1) ∧
    (Reachable (⟨[7], 1, 1⟩ : SimpleVector Int) ∧
      ∃ v1 : SimpleVector Int,
        Insert (some fun _ => 0) ⟨[7], 1, 1⟩ 0 (.object 8) = (v1, .ok 0) ∧
        v1.GetCapacity = 2) ∧
    (Reachable (⟨[0, 0], 0, 2⟩ : SimpleVector Int) ∧
      (PushBack (some fun _ => 0) (⟨[0, 0], 0, 2⟩ : SimpleVector Int) 7).1.GetCapacity = 2) := by
  have r0 : Reachable (ctor : SimpleVector Int) := Reachable.ctor
  have r1 : Reachable (⟨[7], 1, 1⟩ : SimpleVector Int) :=
    Reachable.PushBack (some fun _ => 0) ctor _ 7 (.ok ()) r0 rfl (fun h => Except.noConfusion h)
  have r2 : Reachable (⟨[0, 0], 0, 2⟩ : SimpleVector Int) :=
    Reachable.ctorReserve (some fun _ => 0) (Reserve 2) _ rfl
  refine ⟨⟨r0, ?_⟩, ⟨r1, ?_⟩, ⟨r2, ?_⟩⟩
  · exact ((C7_growth_policy (fun _ => (0 : Int)) none ctor 7 0 r0 (by decide)).1
      (by decide)).1
  · exact ((C7_growth_policy (fun _ => (0 : Int)) none ⟨[7], 1, 1⟩ 8 0 r1 (by decide)).1
      (by decide)).2.1
  · exact ((C7_growth_policy (fun _ => (0 : Int)) (some fun _ => 0) ⟨[0, 0], 0, 2⟩ 7 0 r2
      (by decide)).2 (by decide)).1

/-- C8 at the failing input: the array `a` made by three pushes has size 3 and capacity 4;
its copy `b` compares equal to `a`, but owns a block of 3 slots while reporting capacity 4,
so `PushBack`, `Insert` and `Resize(4)` on `b` each write outside the block `b` owns. -/
theorem C8_mutating_the_copy_overruns :
    ∃ a b : SimpleVector Int,
      pushBackAll (some fun _ => 0) ctor [0, 1, 2] = .ok a ∧
      copyCtor (some fun _ => 0) a = .ok b ∧
      operatorEq a b = .ok true ∧
      b.GetSize = 3 ∧ b.GetCapacity = 4 ∧ b.items_.length = 3 ∧
      (PushBack (some fun _ => 0) b 9).2 = .error .Undefined ∧
      (Insert (some fun _ => 0) b 0 (.object 9)).2 = .error .Undefined ∧
      (Resize (some fun _ => 0) b 4).2 = .error .Undefined :=
  ⟨⟨[0, 1, 2, 0], 3, 4⟩, ⟨[0, 1, 2], 3, 4⟩, rfl, rfl, rfl, rfl, rfl, rfl, rfl, rfl, rfl⟩

/-- C9: after move construction of `b` from `a`, and after move assignment to `b` from a
different object `a`, the source `a` has size 0 and capacity 0, and `b` has the former
size, capacity, block and elements of `a`, in the same order. -/
theorem C9_move_leaves_source_empty {α : Type} (a target : SimpleVector α) :
    ((moveCtor a).2.GetSize = 0 ∧ (moveCtor a).2.GetCapacity = 0 ∧
      (moveCtor a).1.GetSize = a.GetSize ∧ (moveCtor a).1.GetCapacity = a.GetCapacity ∧
      (moveCtor a).1.items_ = a.items_ ∧ (moveCtor a).1.contents = a.contents) ∧
    ((moveAssign target a).2.GetSize = 0 ∧ (moveAssign target a).2.GetCapacity = 0 ∧
      (moveAssign target a).1.GetSize = a.GetSize ∧
      (moveAssign target a).1.GetCapacity = a.GetCapacity ∧
      (moveAssign target a).1.items_ = a.items_ ∧
      (moveAssign target a).1.contents = a.contents) :=
  ⟨⟨rfl, rfl, rfl, rfl, rfl, rfl⟩, ⟨rfl, rfl, rfl, rfl, rfl, rfl⟩⟩

/-- C10: on every array whose live elements are stored and for every index `i`, `At(i)`
returns the element at index `i` if and only if `i < size`, and throws the out-of-range
error if and only if `i ≥ size`; either way the array is left unchanged. -/
theorem C10_At_checked {α : Type} (v : SimpleVector α) (i : Nat) (hs : Stored v) :
    ((∃ x, At v i = (v, .ok x) ∧ v.contents[i]? = some x) ↔ i < v.GetSize) ∧
    (At v i = (v, .error .IndexOutOfRange) ↔ v.GetSize ≤ i) ∧
    (At v i).1 = v := by
  simp only [GetSize]
  refine ⟨⟨fun h => ?_, fun h => At_in_range v i hs h⟩, ⟨fun h => ?_, fun h => At_out_of_range v i h⟩,
    At_same v _ i _ rfl⟩
  · obtain ⟨x, hx, _⟩ := h
    by_cases hi : i < v.size_
    · exact hi
    · rw [At_out_of_range v i (by omega)] at hx
      simp at hx
  · by_cases hi : v.size_ ≤ i
    · exact hi
    · obtain ⟨x, hx, _⟩ := At_in_range v i hs (by omega)
      rw [hx] at h
      simp at h

/-- C10 at the array `[1,2,3]` with capacity 4: index 1 is returned, index 3 (inside the
capacity, past the size) throws. -/
theorem C10_At_checked_witness :
    Stored (⟨[1, 2, 3, 0], 3, 4⟩ : SimpleVector Int) ∧
    (∃ x, At (⟨[1, 2, 3, 0], 3, 4⟩ : SimpleVector Int) 1 = (⟨[1, 2, 3, 0], 3, 4⟩, .ok x)) ∧
    At (⟨[1, 2, 3, 0], 3, 4⟩ : SimpleVector Int) 3
      = (⟨[1, 2, 3, 0], 3, 4⟩, .error .IndexOutOfRange) := by
  refine ⟨by decide, ?_, ?_⟩
  · obtain ⟨x, hx, _⟩ := (C10_At_checked (⟨[1, 2, 3, 0], 3, 4⟩ : SimpleVector Int) 1
      (by decide)).1.2 (by decide)
    exact ⟨x, hx⟩
  · exact (C10_At_checked (⟨[1, 2, 3, 0], 3, 4⟩ : SimpleVector Int) 3 (by decide)).2.1.2
      (by decide)

/-- C11 at the failing input: on the array `a` made by three pushes (size 3, capacity 4),
`Resize(4)` stays within the capacity and leaves `[0,1,2,0]`; on the copy `b` of `a`, which
owns 3 slots under capacity 4, `Resize(4)` takes the same within-capacity path and writes the
default value to offset 3, outside the block, so the element at index 3 is not established
as the default value. -/
theorem C11_Resize_on_copy_overruns :
    ∃ a a1 b : SimpleVector Int,
      pushBackAll (some fun _ => 7) ctor [0, 1, 2] = .ok a ∧
      Resize (some fun _ => 7) a 4 = (a1, .ok ()) ∧ a1.contents = [0, 1, 2, 0] ∧
      copyCtor (some fun _ => 7) a = .ok b ∧
      b.GetSize = 3 ∧ b.GetCapacity = 4 ∧ b.items_.length = 3 ∧ ¬ 4 > b.GetCapacity ∧
      (Resize (some fun _ => 7) b 4).2 = .error .Undefined :=
  ⟨⟨[0, 1, 2, 7], 3, 4⟩, ⟨[0, 1, 2, 0], 4, 4⟩, ⟨[0, 1, 2], 3, 4⟩,
    rfl, rfl, rfl, rfl, rfl, rfl, rfl, by decide, rfl⟩

/-- C12: on every array whose live elements are stored and whose size is within its
capacity `c`, for every target `t`, `Reserve(t)`, its storage request granted, returns with
capacity `max(c, t)`: exactly `t` when `t > c`, unchanged otherwise, never smaller than
before; the size and every live element are unchanged. -/
theorem C12_Reserve_keeps_contents {α : Type} (f : Nat → α) (v : SimpleVector α) (t : Nat)
    (h : Sound v) :
    ∃ v1, SimpleVector.Reserve (some f) v t = (v1, .ok ()) ∧
      v1.GetCapacity = max v.GetCapacity t ∧
      (t > v.GetCapacity → v1.GetCapacity = t) ∧
      (¬ t > v.GetCapacity → v1.GetCapacity = v.GetCapacity) ∧
      v.GetCapacity ≤ v1.GetCapacity ∧
      v1.GetSize = v.GetSize ∧ v1.contents = v.contents ∧
      (∀ i, i < v.GetSize → subscript v1 i = subscript v i) := by
  simp only [GetSize, GetCapacity]
  obtain ⟨v1, h1, hsz, hc, hcap, _, _⟩ := Reserve_spec f v t h
  refine ⟨v1, h1, hcap, fun hg => ?_, fun hg => ?_, ?_, hsz, hc, fun i _ => ?_⟩
  · rw [hcap]; omega
  · rw [hcap]; omega
  · rw [hcap]; omega
  · rw [subscript_eq, subscript_eq v, hc]

/-- C12 at the array `[1,2]` with capacity 3: `Reserve(8)` gives capacity 8, `Reserve(2)`
leaves capacity 3; the contents stay `[1,2]`. -/
theorem C12_Reserve_keeps_contents_witness :
    Sound (⟨[1, 2, 0], 2, 3⟩ : SimpleVector Int) ∧
    (∃ v1 : SimpleVector Int, SimpleVector.Reserve (some fun _ => 7) ⟨[1, 2, 0], 2, 3⟩ 8 = (v1, .ok ()) ∧
      v1.GetCapacity = 8 ∧ v1.contents = [1, 2]) ∧
    (∃ v1 : SimpleVector Int, SimpleVector.Reserve (some fun _ => 7) ⟨[1, 2, 0], 2, 3⟩ 2 = (v1, .ok ()) ∧
      v1.GetCapacity = 3 ∧ v1.contents = [1, 2]) := by
  refine ⟨by decide, ?_, ?_⟩
  · obtain ⟨v1, h1, hcap, _, _, _, _, hc, _⟩ := C12_Reserve_keeps_contents (fun _ => (7 : Int))
      ⟨[1, 2, 0], 2, 3⟩ 8 (by decide)
    exact ⟨v1, h1, hcap, hc⟩
  · obtain ⟨v1, h1, hcap, _, _, _, _, hc, _⟩ := C12_Reserve_keeps_contents (fun _ => (7 : Int))
      ⟨[1, 2, 0], 2, 3⟩ 2 (by decide)
    exact ⟨v1, h1, hcap, hc⟩

/-- C13: the default constructor gives size 0 and capacity 0; and, the storage request
granted, construction by count `n` gives size `n`, capacity `n` and every element the
default value; by count `n` and value `x`, size `n`, capacity `n` and every element `x`; from
a literal list of length `n`, size `n`, capacity `n` and element `i` the `i`-th entry; from
`Reserve(c)`, size 0 and capacity `c`. -/
theorem C13_constructors {α : Type} [Inhabited α] (f : Nat → α) (n : Nat) (x : α)
    (init : List α) (c : Nat) :
    ((ctor : SimpleVector α).GetSize = 0 ∧ (ctor : SimpleVector α).GetCapacity = 0) ∧
    (∃ v, ctorSize (some f) n = .ok v ∧ v.GetSize = n ∧ v.GetCapacity = n ∧
      v.contents = List.replicate n default ∧ ∀ i, i < n → subscript v i = .ok default) ∧
    (∃ v, ctorSizeValue (some f) n x = .ok v ∧ v.GetSize = n ∧ v.GetCapacity = n ∧
      v.contents = List.replicate n x ∧ ∀ i, i < n → subscript v i = .ok x) ∧
    (∃ v, ctorInit (some f) init = .ok v ∧ v.GetSize = init.length ∧
      v.GetCapacity = init.length ∧ v.contents = init ∧
      ∀ i y, init[i]? = some y → subscript v i = .ok y) ∧
    (∃ v, ctorReserve (some f) (CppSimpleVector.Reserve c) = .ok v ∧ v.GetSize = 0 ∧
      v.GetCapacity = c ∧ v.contents = []) := by
  simp only [GetSize, GetCapacity]
  refine ⟨⟨rfl, rfl⟩, ?_, ?_, ?_, ?_⟩
  · obtain ⟨v, h1, hsz, hcap, _, hc⟩ := ctorSizeValue_spec f n (default : α)
    refine ⟨v, h1, hsz, hcap, hc, fun i hi => ?_⟩
    apply subscript_of_contents
    rw [hc, List.getElem?_replicate, if_pos hi]
  · obtain ⟨v, h1, hsz, hcap, _, hc⟩ := ctorSizeValue_spec f n x
    refine ⟨v, h1, hsz, hcap, hc, fun i hi => ?_⟩
    apply subscript_of_contents
    rw [hc, List.getElem?_replicate, if_pos hi]
  · obtain ⟨v, h1, hsz, hcap, _, hc⟩ := ctorInit_spec f init
    refine ⟨v, h1, hsz, hcap, hc, fun i y hy => ?_⟩
    apply subscript_of_contents
    rw [hc]
    exact hy
  · obtain ⟨v, h1, hsz, hcap, _⟩ := ctorReserve_spec f c
    refine ⟨v, h1, hsz, hcap, ?_⟩
    simp [contents, hsz]

/-- C14: for every two arrays whose live elements are stored (of any capacities), `a == b`
holds if and only if they have the same size and `a[i]` equals `b[i]` for every `i < size`;
the result is a function of the live elements alone, so spare capacity and the slots at or
beyond the size never influence it; and `a != b` is its negation. -/
theorem C14_equality {α : Type} [BEq α] [LawfulBEq α] (a b : SimpleVector α) (ha : Stored a)
    (hb : Stored b) :
    (operatorEq a b = .ok true ↔
      a.GetSize = b.GetSize ∧ ∀ i, i < a.GetSize → subscript a i = subscript b i) ∧
    (operatorEq a b = .ok false ↔
      ¬ (a.GetSize = b.GetSize ∧ ∀ i, i < a.GetSize → subscript a i = subscript b i)) ∧
    operatorEq a b = .ok (a.contents == b.contents) ∧
    operatorNe a b = .ok (!(a.contents == b.contents)) := by
  simp only [GetSize]
  have heq := operatorEq_stored a b ha hb
  have hiff := contents_eq_iff a b ha hb
  refine ⟨?_, ?_, heq, operatorNe_stored a b ha hb⟩
  · rw [heq, ← hiff]
    constructor
    · intro h
      simp only [Except.ok.injEq] at h
      exact eq_of_beq h
    · intro h
      rw [h, beq_self_eq_true]
  · rw [heq, ← hiff]
    constructor
    · intro h hc
      simp only [Except.ok.injEq] at h
      rw [hc, beq_self_eq_true] at h
      exact Bool.noConfusion h
    · intro h
      have : (a.contents == b.contents) = false := by
        cases hbeq : (a.contents == b.contents) with
        | false => rfl
        | true => exact absurd (eq_of_beq hbeq) h
      rw [this]

/-- C14 at `[1,2]` held with capacity 3 and a stale third slot, against `[1,2]` held with
capacity 2 (equal), and against `[1,3]` (not equal). -/
theorem C14_equality_witness :
    Stored (⟨[1, 2, 9], 2, 3⟩ : SimpleVector Int) ∧ Stored (⟨[1, 2], 2, 2⟩ : SimpleVector Int) ∧
    Stored (⟨[1, 3], 2, 2⟩ : SimpleVector Int) ∧
    operatorEq (⟨[1, 2, 9], 2, 3⟩ : SimpleVector Int) ⟨[1, 2], 2, 2⟩ = .ok true ∧
    operatorNe (⟨[1, 2, 9], 2, 3⟩ : SimpleVector Int) ⟨[1, 3], 2, 2⟩ = .ok true := by
  refine ⟨by decide, by decide, by decide, ?_, ?_⟩
  · rw [(C14_equality (⟨[1, 2, 9], 2, 3⟩ : SimpleVector Int) ⟨[1, 2], 2, 2⟩ (by decide)
      (by decide)).2.2.1]
    rfl
  · rw [(C14_equality (⟨[1, 2, 9], 2, 3⟩ : SimpleVector Int) ⟨[1, 3], 2, 2⟩ (by decide)
      (by decide)).2.2.2]
    rfl

/-- C15, as stated, fails: erasing the last element of `[1,2,3]` (position 2, prior size
3) returns position 2, not the prior size 3. -/
theorem C15_claimed_return_refuted :
    (Erase (⟨[1, 2, 3], 3, 3⟩ : SimpleVector Int) 2).2 = .ok 2 ∧
    (Erase (⟨[1, 2, 3], 3, 3⟩ : SimpleVector Int) 2).2
      ≠ .ok (GetSize (⟨[1, 2, 3], 3, 3⟩ : SimpleVector Int)) := by
  refine ⟨rfl, fun h => ?_⟩
  have h2 : (Erase (⟨[1, 2, 3], 3, 3⟩ : SimpleVector Int) 2).2 = .ok 2 := rfl
  rw [h2] at h
  simp only [Except.ok.injEq, GetSize] at h
  exact absurd h (by decide)

/-- C15, amended: on every array whose live elements are stored, for every position
`p < size`, `Erase(p)` returns `p`, the index where the next element now resides: the
element that was at `p + 1` is at `p` when the erased element was not the last one, and `p`
is the new size (the prior size less one, the new `end()`) when it was. -/
theorem C15_Erase_returns_position {α : Type} (v : SimpleVector α) (p : Nat) (hs : Stored v)
    (hp : p < v.GetSize) :
    ∃ v1, Erase v p = (v1, .ok p) ∧
      (p + 1 < v.GetSize → subscript v1 p = subscript v (p + 1)) ∧
      (p + 1 = v.GetSize → p = v1.GetSize ∧ p = v.GetSize - 1) := by
  simp only [GetSize] at hp ⊢
  obtain ⟨v1, h1, hsz, hc, _, _⟩ := Erase_stored v p hs hp
  have hpl : p ≤ v.contents.length := by rw [contents_length v hs]; omega
  refine ⟨v1, h1, fun _ => ?_, fun hl => ⟨by omega, by omega⟩⟩
  rw [subscript_eq, subscript_eq v, hc, getElem?_erase_at _ _ hpl, if_neg (Nat.lt_irrefl p)]

/-- C15, amended, at `[1,2,3]`: erasing at 0 returns 0, erasing the last element returns
2. -/
theorem C15_Erase_returns_position_witness :
    Stored (⟨[1, 2, 3], 3, 3⟩ : SimpleVector Int) ∧
    (∃ v1, Erase (⟨[1, 2, 3], 3, 3⟩ : SimpleVector Int) 0 = (v1, .ok 0)) ∧
    (∃ v1, Erase (⟨[1, 2, 3], 3, 3⟩ : SimpleVector Int) 2 = (v1, .ok 2) ∧ 2 = v1.GetSize) := by
  refine ⟨by decide, ?_, ?_⟩
  · obtain ⟨v1, h1, _⟩ := C15_Erase_returns_position (⟨[1, 2, 3], 3, 3⟩ : SimpleVector Int) 0
      (by decide) (by decide)
    exact ⟨v1, h1⟩
  · obtain ⟨v1, h1, _, h3⟩ := C15_Erase_returns_position (⟨[1, 2, 3], 3, 3⟩ : SimpleVector Int) 2
      (by decide) (by decide)
    exact ⟨v1, h1, (h3 rfl).1⟩

/-- C16: for every array, a `PushBack`, an `Insert` at a valid position, a `Reserve` or a
`Resize` that needs new storage and whose storage request is refused ends in
`std::bad_alloc` with the array exactly as it was before the call (block, size and capacity);
and whatever the storage request gives, a call of one of the four that ends in
`std::bad_alloc` leaves the array exactly as it was. -/
theorem C16_allocation_failure_leaves_array {α : Type} [Inhabited α]
    (fresh : Option (Nat → α)) (v v1 : SimpleVector α) (x : α) (value : ValueRef α)
    (pos t n : Nat) :
    (v.GetSize + 1 > v.GetCapacity → PushBack none v x = (v, .error .OutOfMemory)) ∧
    (pos ≤ v.GetSize → v.GetSize + 1 > v.GetCapacity →
      Insert none v pos value = (v, .error .OutOfMemory)) ∧
    (t > v.GetCapacity → SimpleVector.Reserve none v t = (v, .error .OutOfMemory)) ∧
    (n > v.GetCapacity → Resize none v n = (v, .error .OutOfMemory)) ∧
    (PushBack fresh v x = (v1, .error .OutOfMemory) → v1 = v) ∧
    (Insert fresh v pos value = (v1, .error .OutOfMemory) → v1 = v) ∧
    (SimpleVector.Reserve fresh v t = (v1, .error .OutOfMemory) → v1 = v) ∧
    (Resize fresh v n = (v1, .error .OutOfMemory) → v1 = v) :=
  ⟨PushBack_refused v x, Insert_refused v pos value, Reserve_refused v t, Resize_refused v n,
    PushBack_oom fresh v v1 x, Insert_oom fresh v v1 pos value, Reserve_oom fresh v v1 t,
    Resize_oom fresh v v1 n⟩

/-- C16 at the full array `[1,2]`: each of the four calls, its storage request refused,
throws and leaves `[1,2]` with size 2 and capacity 2. -/
theorem C16_allocation_failure_leaves_array_witness :
    PushBack none (⟨[1, 2], 2, 2⟩ : SimpleVector Int) 9 = (⟨[1, 2], 2, 2⟩, .error .OutOfMemory) ∧
    Insert none (⟨[1, 2], 2, 2⟩ : SimpleVector Int) 1 (.object 9)
      = (⟨[1, 2], 2, 2⟩, .error .OutOfMemory) ∧
    Insert none (⟨[1, 2], 2, 2⟩ : SimpleVector Int) 0 (.slot 1)
      = (⟨[1, 2], 2, 2⟩, .error .OutOfMemory) ∧
    SimpleVector.Reserve none (⟨[1, 2], 2, 2⟩ : SimpleVector Int) 5
      = (⟨[1, 2], 2, 2⟩, .error .OutOfMemory) ∧
    Resize none (⟨[1, 2], 2, 2⟩ : SimpleVector Int) 5 = (⟨[1, 2], 2, 2⟩, .error .OutOfMemory) := by
  have h := C16_allocation_failure_leaves_array none (⟨[1, 2], 2, 2⟩ : SimpleVector Int)
    ⟨[1, 2], 2, 2⟩ 9 (.object 9) 1 5 5
  have h2 := C16_allocation_failure_leaves_array none (⟨[1, 2], 2, 2⟩ : SimpleVector Int)
    ⟨[1, 2], 2, 2⟩ 9 (.slot 1) 0 5 5
  exact ⟨h.1 (by decide), h.2.1 (by decide) (by decide), h2.2.1 (by decide) (by decide),
    h.2.2.1 (by decide), h.2.2.2.1 (by decide)⟩

/-- C17 at the failing input: the array `a` made by three pushes (size 3, capacity 4) is
reachable, and so is its copy `b`; `b` reports capacity 4 over a block of 3 slots, so offset
3, below the reported capacity, lies outside the block, and the non-growing `PushBack` and
`Insert` on `b` write outside it. -/
theorem C17_copy_breaks_storage_invariant :
    ∃ a b : SimpleVector Int,
      Reachable a ∧ copyCtor (some fun _ => 0) a = .ok b ∧ Reachable b ∧
      a.items_.length = a.GetCapacity ∧
      b.GetSize = 3 ∧ b.GetCapacity = 4 ∧ b.items_.length = 3 ∧
      b.items_.length ≠ b.GetCapacity ∧ ¬ Backed b ∧
      (PushBack (some fun _ => 0) b 9).2 = .error .Undefined ∧
      (Insert (some fun _ => 0) b 0 (.object 9)).2 = .error .Undefined := by
  have r0 : Reachable (ctor : SimpleVector Int) := Reachable.ctor
  have r1 : Reachable (⟨[0], 1, 1⟩ : SimpleVector Int) :=
    Reachable.PushBack (some fun _ => 0) ctor _ 0 (.ok ()) r0 rfl (fun h => Except.noConfusion h)
  have r2 : Reachable (⟨[0, 1], 2, 2⟩ : SimpleVector Int) :=
    Reachable.PushBack (some fun _ => 0) _ _ 1 (.ok ()) r1 rfl (fun h => Except.noConfusion h)
  have r3 : Reachable (⟨[0, 1, 2, 0], 3, 4⟩ : SimpleVector Int) :=
    Reachable.PushBack (some fun _ => 0) _ _ 2 (.ok ()) r2 rfl (fun h => Except.noConfusion h)
  have r4 : Reachable (⟨[0, 1, 2], 3, 4⟩ : SimpleVector Int) :=
    Reachable.copyCtor (some fun _ => 0) _ _ r3 rfl
  exact ⟨⟨[0, 1, 2, 0], 3, 4⟩, ⟨[0, 1, 2], 3, 4⟩, r3, rfl, r4, rfl, rfl, rfl, rfl, by decide,
    by decide, rfl, rfl⟩

/-- C18: every reachable array (made by any constructor, then changed by any run of
`PushBack`, `Insert`, `Erase`, `PopBack`, `Clear`, `Resize`, `Reserve`, `swap`, element
writes, copy and move assignment, each called within its precondition) has its size within
its capacity. -/
theorem C18_size_within_capacity {α : Type} [Inhabited α] (v : SimpleVector α)
    (h : Reachable v) : v.GetSize ≤ v.GetCapacity :=
  h.sound.2

/-- C18 at the array left by `Reserve(2)`-construction, one `PushBack` and `Clear`. -/
theorem C18_size_within_capacity_witness :
    Reachable (⟨[7, 0], 0, 2⟩ : SimpleVector Int) ∧
    (⟨[7, 0], 0, 2⟩ : SimpleVector Int).GetSize ≤ (⟨[7, 0], 0, 2⟩ : SimpleVector Int).GetCapacity := by
  have r0 : Reachable (⟨[0, 0], 0, 2⟩ : SimpleVector Int) :=
    Reachable.ctorReserve (some fun _ => 0) (Reserve 2) _ rfl
  have r1 : Reachable (⟨[7, 0], 1, 2⟩ : SimpleVector Int) :=
    Reachable.PushBack (some fun _ => 0) _ _ 7 (.ok ()) r0 rfl (fun h => Except.noConfusion h)
  have r2 : Reachable (⟨[7, 0], 0, 2⟩ : SimpleVector Int) := Reachable.Clear _ r1
  exact ⟨r2, C18_size_within_capacity _ r2⟩

/-- C19: starting from the default-constructed array, after `n ≥ 1` consecutive `PushBack`
calls (storage requests granted) the capacity is the smallest power of two that is at least
`n`, namely `2 ^ clog₂ n`; and exactly `clog₂ n + 1` of the `n` calls asked for new storage,
a number logarithmic in `n`. -/
theorem C19_capacity_after_pushes {α : Type} (f : Nat → α) (xs : List α)
    (hn : 1 ≤ xs.length) :
    ∃ v, pushBackAll (some f) ctor xs = .ok v ∧ v.GetSize = xs.length ∧
      v.GetCapacity = 2 ^ Nat.clog 2 xs.length ∧
      xs.length ≤ v.GetCapacity ∧
      (∀ e, xs.length ≤ 2 ^ e → v.GetCapacity ≤ 2 ^ e) ∧
      pushBackGrowths (some f) ctor xs = Nat.clog 2 xs.length + 1 := by
  cases xs with
  | nil => exact absurd hn (Nat.not_succ_le_zero 0)
  | cons x xs =>
    obtain ⟨v, e, h1, hsz, hcap, hle, hlow, hcnt⟩ := pushBackAll_ctor_pow2 f x xs
    have hlen : (x :: xs).length = v.size_ := by rw [hsz, List.length_cons]
    have hclog : Nat.clog 2 (x :: xs).length = e := by
      rw [hlen]
      apply le_antisymm
      · exact (Nat.le_pow_iff_clog_le one_lt_two).1 hle
      · rcases hlow with h0 | h0
        · rw [h0]
          exact Nat.zero_le _
        · have := (Nat.pow_lt_iff_lt_clog one_lt_two).1 h0
          omega
    simp only [GetSize, GetCapacity]
    refine ⟨v, h1, hlen.symm, ?_, ?_, fun e2 he2 => ?_, ?_⟩
    · rw [hclog, hcap]
    · rw [hlen, hcap]
      exact hle
    · rw [hcap, ← hclog]
      exact Nat.pow_le_pow_right (by decide) ((Nat.le_pow_iff_clog_le one_lt_two).1 he2)
    · rw [hclog, hcnt]

/-- C19 at the ten pushes of the driver: capacity 16, after five requests for storage. -/
theorem C19_capacity_after_pushes_witness :
    1 ≤ [0, 1, 2, 3, 4, 5, 6, 7, 8, (9 : Int)].length ∧
    ∃ v : SimpleVector Int,
      pushBackAll (some fun _ => 0) ctor [0, 1, 2, 3, 4, 5, 6, 7, 8, 9] = .ok v ∧
      v.GetCapacity = 16 ∧
      pushBackGrowths (some fun _ => (0 : Int)) ctor [0, 1, 2, 3, 4, 5, 6, 7, 8, 9] = 5 := by
  have hclog : Nat.clog 2 10 = 4 := by
    apply le_antisymm
    · exact (Nat.le_pow_iff_clog_le one_lt_two).1 (by decide)
    · exact (Nat.pow_lt_iff_lt_clog one_lt_two).1 (by decide)
  refine ⟨by decide, ?_⟩
  obtain ⟨v, h1, _, hcap, _, _, hcnt⟩ := C19_capacity_after_pushes (fun _ => (0 : Int))
    [0, 1, 2, 3, 4, 5, 6, 7, 8, 9] (by decide)
  have hl : [0, 1, 2, 3, 4, 5, 6, 7, 8, (9 : Int)].length = 10 := rfl
  rw [hl, hclog] at hcap hcnt
  exact ⟨v, h1, hcap, hcnt⟩

/-- C20: for every two arrays whose live elements are stored, the elements in a linear
order (a strict total `<` with `==` the equality), `operator<` is the lexicographic order on
the live elements, in which a proper prefix is below the longer array; `a <= b` holds
exactly when `b < a` does not, `a >= b` exactly when `a < b` does not, `a > b` exactly when
`b < a`; and exactly one of `a < b`, `a == b`, `b < a` holds. -/
theorem C20_ordering {α : Type} [LinearOrder α] (a b : SimpleVector α) (ha : Stored a)
    (hb : Stored b) :
    ∃ lt gt eq : Bool,
      operatorLt a b = .ok lt ∧ operatorLt b a = .ok gt ∧ operatorEq a b = .ok eq ∧
      (lt = true ↔ List.Lex (fun x y => x < y) a.contents b.contents) ∧
      (gt = true ↔ List.Lex (fun x y => x < y) b.contents a.contents) ∧
      (eq = true ↔ a.contents = b.contents) ∧
      (∀ t, t ≠ [] → b.contents = a.contents ++ t → lt = true) ∧
      operatorLe a b = .ok (!gt) ∧ operatorGe a b = .ok (!lt) ∧ operatorGt a b = .ok gt ∧
      ((lt = true ∧ eq = false ∧ gt = false) ∨ (lt = false ∧ eq = true ∧ gt = false) ∨
        (lt = false ∧ eq = false ∧ gt = true)) := by
  obtain ⟨lt, hlt, hltiff⟩ := operatorLt_stored a b ha hb
  obtain ⟨gt, hgt, hgtiff⟩ := operatorLt_stored b a hb ha
  have heq := operatorEq_stored a b ha hb
  have heqiff : (a.contents == b.contents) = true ↔ a.contents = b.contents := beq_iff_eq
  have hprefix : ∀ t, t ≠ [] → b.contents = a.contents ++ t → lt = true := by
    intro t ht hbt
    rw [hltiff, hbt]
    exact lex_append_of_ne_nil a.contents t ht
  have hirr : ∀ l : List α, ¬ List.Lex (fun x y => x < y) l l := fun l h => asymm h h
  refine ⟨lt, gt, a.contents == b.contents, hlt, hgt, heq, hltiff, hgtiff, heqiff, hprefix, ?_⟩
  rcases trichotomous_of (List.Lex (fun (x y : α) => x < y)) a.contents b.contents with h | h | h
  · -- below
    have h1 : lt = true := hltiff.2 h
    have h2 : gt = false := by
      cases hg : gt with
      | false => rfl
      | true => exact absurd (hgtiff.1 hg) (asymm h)
    have h3 : (a.contents == b.contents) = false := by
      cases he : (a.contents == b.contents) with
      | false => rfl
      | true =>
        have := heqiff.1 he
        rw [this] at h
        exact absurd h (hirr _)
    subst h1 h2
    rw [h3] at heq ⊢
    refine ⟨?_, ?_, hgt, Or.inl ⟨rfl, rfl, rfl⟩⟩
    · simp only [operatorLe, heq, hlt, Bool.not_false]
    · simp only [operatorGe, heq, hgt, Bool.not_true]
  · -- equal
    have h1 : lt = false := by
      cases hl : lt with
      | false => rfl
      | true =>
        have := hltiff.1 hl
        rw [h] at this
        exact absurd this (hirr _)
    have h2 : gt = false := by
      cases hg : gt with
      | false => rfl
      | true =>
        have := hgtiff.1 hg
        rw [h] at this
        exact absurd this (hirr _)
    have h3 : (a.contents == b.contents) = true := heqiff.2 h
    subst h1 h2
    rw [h3] at heq ⊢
    refine ⟨?_, ?_, hgt, Or.inr (Or.inl ⟨rfl, rfl, rfl⟩)⟩
    · simp only [operatorLe, heq, Bool.not_false]
    · simp only [operatorGe, heq, Bool.not_false]
  · -- above
    have h1 : gt = true := hgtiff.2 h
    have h2 : lt = false := by
      cases hl : lt with
      | false => rfl
      | true => exact absurd (hltiff.1 hl) (asymm h)
    have h3 : (a.contents == b.contents) = false := by
      cases he : (a.contents == b.contents) with
      | false => rfl
      | true =>
        have := heqiff.1 he
        rw [this] at h
        exact absurd h (hirr _)
    subst h1 h2
    rw [h3] at heq ⊢
    refine ⟨?_, ?_, hgt, Or.inr (Or.inr ⟨rfl, rfl, rfl⟩)⟩
    · simp only [operatorLe, heq, hlt, Bool.not_true]
    · simp only [operatorGe, heq, hgt, Bool.not_false]

/-- C20 at `[1,2]` (held with a stale spare slot) against its proper extension `[1,2,0]`:
`a < b` and `a <= b` hold, `a > b` and `a >= b` do not. -/
theorem C20_ordering_witness :
    Stored (⟨[1, 2, 9], 2, 3⟩ : SimpleVector Int) ∧ Stored (⟨[1, 2, 0], 3, 3⟩ : SimpleVector Int) ∧
    operatorLt (⟨[1, 2, 9], 2, 3⟩ : SimpleVector Int) ⟨[1, 2, 0], 3, 3⟩ = .ok true ∧
    operatorLe (⟨[1, 2, 9], 2, 3⟩ : SimpleVector Int) ⟨[1, 2, 0], 3, 3⟩ = .ok true ∧
    operatorGt (⟨[1, 2, 9], 2, 3⟩ : SimpleVector Int) ⟨[1, 2, 0], 3, 3⟩ = .ok false ∧
    operatorGe (⟨[1, 2, 9], 2, 3⟩ : SimpleVector Int) ⟨[1, 2, 0], 3, 3⟩ = .ok false := by
  obtain ⟨lt, gt, eq, h1, _, _, _, _, _, hpre, hle, hge, hgt, htri⟩ :=
    C20_ordering (⟨[1, 2, 9], 2, 3⟩ : SimpleVector Int) ⟨[1, 2, 0], 3, 3⟩ (by decide) (by decide)
  have hlt : lt = true := hpre [0] (by decide) rfl
  have hg : gt = false := by
    rcases htri with h | h | h
    · exact h.2.2
    · rw [h.1] at hlt
      exact Bool.noConfusion hlt
    · rw [h.1] at hlt
      exact Bool.noConfusion hlt
  subst hlt hg
  exact ⟨by decide, by decide, h1, hle, hgt, hge⟩

end CppSimpleVector
